import Mathlib

/-!
Verification development for the go-json repository (jn0/go-json).

The Go sources `json_values.go` and `json_parsers.go` are shallowly embedded
here.  Go strings are modelled as `List Char`: the sources iterate strings
rune-by-rune with `range` and only slice at positions that `range` yielded
(the scanner reports the position of the closing quote, and slicing just past
that quote denotes the same suffix whether the position is counted in bytes,
as in Go, or in runes, as here), so the rune-level model is faithful; the one
place where a byte count is observable — the `\u` payload length check inside
`getString` — is modelled by an explicit UTF-8 byte count (`strBytes`).
Go's `float64` payload of `JsonFloat` is modelled by `Rat`:
the claims under study never depend on IEEE-754 rounding, only on which parse
calls succeed and on the shape of serialized text.  A Go `panic` is modelled
as an explicit `fatal` result, and the standard-library helpers the sources
call (`strconv.ParseInt`, `strconv.ParseFloat`, `strings.TrimSpace`,
`strings.ToLower`, `fmt` verbs `%d`/`%f`/`%q`/`%v`, `sort.Strings`) are
modelled next to the code that uses them.
-/

/-- Go `string`: modelled as its sequence of runes. -/
abbrev Str := List Char

/-- Convenience: the rune list of a Lean string literal. -/
def strL (s : String) : Str := s.toList

/-- Model of `unicode.IsSpace` restricted to the code points that can actually
reach `strings.TrimSpace` in this development (ASCII whitespace plus NEL and
NBSP; the remaining Unicode space classes are elided). -/
def goIsSpace (c : Char) : Bool :=
  c = ' ' || c = '\t' || c = '\n' || c = '\x0b' || c = '\x0c' || c = '\r' ||
  c = '\x85' || c = '\xa0'

/-- Model of `strings.TrimSpace` (leading part). -/
def trimLeft (s : Str) : Str := s.dropWhile goIsSpace

/-- Model of `strings.TrimSpace` (trailing part). -/
def trimRight (s : Str) : Str := (s.reverse.dropWhile goIsSpace).reverse

/-- Model of `strings.TrimSpace`: drop leading and trailing white space. -/
def trimSpace (s : Str) : Str := trimRight (trimLeft s)

/-- `isDigit` from `json_parsers.go` (the `digits` map membership test). -/
def isDigit (c : Char) : Bool := '0' ≤ c && c ≤ '9'

/-- Numeric value of a decimal digit character. -/
def digitVal (c : Char) : Nat := c.toNat - '0'.toNat

/-- Value of a run of decimal digits, most significant first. -/
def digitsVal (s : Str) : Nat := s.foldl (fun a c => 10 * a + digitVal c) 0

/-- Digit characters of `n` in base `b`, most significant first, fuelled so
that the definition evaluates by kernel reduction (`natReprAux_eq_digits`
below connects it to `Nat.digits`). -/
def natReprAux (b : Nat) : Nat → Nat → Str
  | 0, _ => []
  | fuel + 1, n => if n = 0 then [] else natReprAux b fuel (n / b) ++ [Nat.digitChar (n % b)]

/-- Decimal digit characters of `n`, most significant first (model of the
digit emission inside `fmt.Sprintf "%d"`). -/
def natRepr (n : Nat) : Str :=
  if n = 0 then ['0'] else natReprAux 10 (n + 1) n

/-- Model of `fmt.Sprintf "%d"` on a Go signed integer. -/
def intRepr (n : Int) : Str :=
  if n < 0 then '-' :: natRepr n.natAbs else natRepr n.natAbs

/-- Hexadecimal digit test (as accepted by `strconv.ParseInt` with base 16). -/
def isHexDigit (c : Char) : Bool :=
  isDigit c || ('a' ≤ c && c ≤ 'f') || ('A' ≤ c && c ≤ 'F')

/-- Numeric value of a hexadecimal digit character. -/
def hexVal (c : Char) : Nat :=
  if isDigit c then digitVal c
  else if 'a' ≤ c && c ≤ 'f' then c.toNat - 'a'.toNat + 10
  else c.toNat - 'A'.toNat + 10

/-- Value of a run of hexadecimal digits, most significant first. -/
def hexsVal (s : Str) : Nat := s.foldl (fun a c => 16 * a + hexVal c) 0

/-- The optional leading sign accepted by `strconv.ParseInt` /
`strconv.ParseFloat`: `true` means negative, paired with the rest. -/
def splitSign : Str → Bool × Str
  | [] => (false, [])
  | c :: r =>
    if c = '+' then (false, r)
    else if c = '-' then (true, r)
    else (false, c :: r)

/-- Model of `strconv.ParseInt(s, 10, 64)`: optional sign, a non-empty run of
decimal digits, and a signed 64-bit range check.  Go returns a clamped value
together with a non-nil error on failure; every caller in the sources only
checks the error, so the model returns `none` exactly when Go's error is
non-nil. -/
def goParseInt64 (s : Str) : Option Int :=
  let p := splitSign s
  if p.2 = [] then none
  else if p.2.all isDigit then
    let v : Nat := digitsVal p.2
    if p.1 then
      if v ≤ 2 ^ 63 then some (-(v : Int)) else none
    else
      if v ≤ 2 ^ 63 - 1 then some (v : Int) else none
  else none

/-- Model of `strconv.ParseInt(s, 16, 64)` as called on the four characters
collected after a `\u` escape: optional sign, then a non-empty run of
hexadecimal digits (a four-character input cannot overflow 64 bits, so no
range check is needed there, but it is kept for faithfulness). -/
def goParseInt16 (s : Str) : Option Int :=
  let p := splitSign s
  if p.2 = [] then none
  else if p.2.all isHexDigit then
    let v : Nat := hexsVal p.2
    if p.1 then
      if v ≤ 2 ^ 63 then some (-(v : Int)) else none
    else
      if v ≤ 2 ^ 63 - 1 then some (v : Int) else none
  else none

/-- ASCII lower-casing of one character (model of `strings.ToLower` restricted
to ASCII; Unicode case folding is elided, it is not exercised here). -/
def lowerC (c : Char) : Char :=
  if 'A' ≤ c && c ≤ 'Z' then Char.ofNat (c.toNat + 32) else c

/-- Model of `strings.ToLower`. -/
def lowerS (s : Str) : Str := s.map lowerC

/-- A digit run as accepted by Go's numeric literal syntax: when split at
underscores, every piece is a non-empty run of digits (so each underscore
stands between two digits). -/
def runOK (isD : Char → Bool) (s : Str) : Bool :=
  (s.splitOn '_').all fun p => !p.isEmpty && p.all isD

/-- The digits of a run, with the underscores removed. -/
def runDigits (s : Str) : Str := s.filter fun c => c ≠ '_'

/-- Split `s` into the part before the first separator accepted by `sep` and
the remainder starting at that separator. -/
def splitAtSep (sep : Char → Bool) : Str → Str × Str
  | [] => ([], [])
  | c :: r =>
    if sep c then ([], c :: r)
    else
      let (a, b) := splitAtSep sep r
      (c :: a, b)

/-- Mantissa syntax `I | I. | I.F | .F` over a digit alphabet, returning the
digits before and after the dot when well-formed. -/
def mantOK (isD : Char → Bool) (s : Str) : Option (Str × Str) :=
  let (ip, rest) := splitAtSep (fun c => c = '.') s
  match rest with
  | [] => if runOK isD ip then some (runDigits ip, []) else none
  | _ :: fp =>
    if fp.elem '.' then none
    else if ip = [] then
      if runOK isD fp then some ([], runDigits fp) else none
    else if runOK isD ip && (fp.isEmpty || runOK isD fp) then
      some (runDigits ip, runDigits fp)
    else none

/-- Exponent part `e[sign]D` (or `p[sign]D` for hex floats). -/
def expOK (s : Str) : Option Int :=
  let (neg, ds) : Bool × Str :=
    match s with
    | '+' :: r => (false, r)
    | '-' :: r => (true, r)
    | r => (false, r)
  if runOK isDigit ds then
    let v : Nat := digitsVal (runDigits ds)
    some (if neg then -(v : Int) else (v : Int))
  else none

/-- Largest magnitude accepted by `strconv.ParseFloat(·, 64)`: wider values
round to infinity and yield `ErrRange`. -/
def maxFloatCut : Rat := (2 : Rat) ^ 1024 - 2 ^ 970

/-- Model of `strconv.ParseFloat(s, 64)`.  `none` exactly when Go reports a
non-nil error (syntax error or overflow `ErrRange`).  The returned rational is
the exact decimal (or hex) value; IEEE rounding to the nearest `float64` is
elided, and the placeholder `0` stands for the non-rational specials
`Inf`/`NaN`, whose numeric value no claim inspects. -/
def goParseFloat (s : Str) : Option Rat :=
  if s = [] then none else
  let (neg, body) : Bool × Str :=
    match s with
    | '+' :: r => (false, r)
    | '-' :: r => (true, r)
    | r => (false, r)
  if lowerS body = strL "inf" || lowerS body = strL "infinity" then some 0
  else if lowerS s = strL "nan" then some 0
  else
    match body with
    | '0' :: x :: rest =>
      if lowerC x = 'x' then
        -- hex mantissa with a mandatory binary exponent
        let rest' := match rest with
          | '_' :: c :: r => if isHexDigit c then c :: r else rest
          | _ => rest
        let (mant, erest) := splitAtSep (fun c => lowerC c = 'p') rest'
        match erest with
        | [] => none
        | _ :: es =>
          match mantOK isHexDigit mant, expOK es with
          | some (ip, fp), some e =>
            if ip = [] && fp = [] then none
            else
              let m : Rat := (hexsVal (ip ++ fp) : Rat) / (16 : Rat) ^ fp.length
              let v : Rat := m * (2 : Rat) ^ e
              if v > maxFloatCut then none
              else some (if neg then -v else v)
          | _, _ => none
      else decFloat neg body
    | _ => decFloat neg body
where
  /-- The decimal branch of `strconv.ParseFloat`. -/
  decFloat (neg : Bool) (body : Str) : Option Rat :=
    let (mant, erest) := splitAtSep (fun c => lowerC c = 'e') body
    let withExp : Option Int :=
      match erest with
      | [] => some 0
      | _ :: es => expOK es
    match mantOK isDigit mant, withExp with
    | some (ip, fp), some e =>
      if ip = [] && fp = [] then none
      else
        let m : Rat := (digitsVal (ip ++ fp) : Rat) / (10 : Rat) ^ fp.length
        let v : Rat := m * (10 : Rat) ^ e
        if v > maxFloatCut then none
        else some (if neg then -v else v)
    | _, _ => none

/-- Left-pad a digit string with zeros to width `w`. -/
def padZeros (w : Nat) (ds : Str) : Str := List.replicate (w - ds.length) '0' ++ ds

/-- Hexadecimal digits of `n`, zero-padded to width `w` (as in `strconv`'s
`\xNN`, `\uNNNN`, `\UNNNNNNNN` escapes). -/
def hexPad (w n : Nat) : Str :=
  padZeros w (natReprAux 16 (n + 1) n)

/-- Model of `fmt.Sprintf("%f", x)`: fixed-point with six fractional digits.
Rounding is to the nearest sixth decimal (binary `float64` inputs cannot tie,
so the tie-breaking direction is immaterial). -/
def formatF (q : Rat) : Str :=
  let n : Nat := (q.num.natAbs * 1000000 * 2 + q.den) / (2 * q.den)
  (if q < 0 then ['-'] else []) ++
    natRepr (n / 1000000) ++ '.' :: padZeros 6 (natRepr (n % 1000000))

/-- Strict byte-lexicographic order on Go strings (UTF-8 byte order and code
point order agree, so the rune-level comparison models `sort.Strings`). -/
def strLt : Str → Str → Bool
  | [], [] => false
  | [], _ :: _ => true
  | _ :: _, [] => false
  | a :: as, b :: bs => if a < b then true else if a = b then strLt as bs else false

/-- Key order used to sort object entries: `strLt` or equal. -/
def keyLe {β : Type} (x y : Str × β) : Prop := strLt x.1 y.1 = true ∨ x.1 = y.1

instance {β : Type} : DecidableRel (@keyLe β) :=
  fun _ _ => inferInstanceAs (Decidable (_ ∨ _))

/-- Sort rendered object entries by key (model of `sort.Strings` over the
key slice followed by per-key lookup, under the map's key-uniqueness). -/
def sortEntries (l : List (Str × Str)) : List (Str × Str) :=
  List.insertionSort keyLe l

/-- The `JsonValue` interface value held in a variable, array slot, or object
slot.  `jnil` is a nil Go interface (as stored by a parsed `null`); each
variant's `Option` payload distinguishes a nil typed pointer (`none`, the
variant's null state) from a concrete payload.  Arrays and objects further
distinguish a nil backing slice/map (`none`) from a present one. -/
inductive JVal where
  | jnil : JVal
  | jint (v : Option Int) : JVal
  | jfloat (v : Option Rat) : JVal
  | jbool (v : Option Bool) : JVal
  | jstring (v : Option Str) : JVal
  | jarray (v : Option (List JVal)) : JVal
  | jobject (v : Option (List (Str × JVal))) : JVal

/-- The variant tag of a value (fixed at construction in the source). -/
inductive VKind where
  | vnil | vint | vfloat | vbool | vstring | varray | vobject
deriving DecidableEq

/-- Variant tag of a `JVal`. -/
def JVal.kind : JVal → VKind
  | .jnil => .vnil
  | .jint _ => .vint
  | .jfloat _ => .vfloat
  | .jbool _ => .vbool
  | .jstring _ => .vstring
  | .jarray _ => .varray
  | .jobject _ => .vobject

/-- Null state of a string payload: nil pointer or the empty string
(`JsonString.IsNull`). -/
def strNullB (p : Option Str) : Bool := p.isNone || p == some []

/-- The per-variant `IsNull` methods.  On `jnil` this models the combined
`v == nil || v.IsNull()` guard the container code uses for slots (the methods
themselves are only ever invoked on typed receivers in the source). -/
def JVal.IsNull : JVal → Bool
  | .jnil => true
  | .jint p => p.isNone
  | .jfloat p => p.isNone
  | .jbool p => p.isNone
  | .jstring p => strNullB p
  | .jarray p => p.isNone
  | .jobject p => p.isNone

/-- Is this slot a nil Go interface (`v == nil`)? -/
def isJnil : JVal → Bool
  | .jnil => true
  | _ => false

/-- A successful `List.lookup` returns a structurally smaller value (used for
the termination of `Equal` through `cmpMap`'s map lookups). -/
theorem sizeOf_lookup {m : List (Str × JVal)} {k : Str} {o : JVal}
    (h : List.lookup k m = some o) : sizeOf o < sizeOf m := by
  induction m with
  | nil => simp [List.lookup] at h
  | cons e rest ih =>
    rw [List.lookup] at h
    split at h
    · cases h
      cases e with
      | mk a b => simp; omega
    · have := ih h
      cases e with
      | mk a b => simp; omega

mutual

/-- The `Equal` methods of `json_values.go`.  `none` models a Go panic (the
only reachable one: calling `Equal` through a nil interface inside `cmpMap`).
Go's map iteration order is unspecified; `cmpMap` is modelled iterating the
association list in storage order, one admissible execution. -/
def JVal.Equal : JVal → JVal → Option Bool
  | .jnil, _ => none
  | .jint p, v =>
    match v with
    | .jnil => some p.isNone
    | .jint q =>
      match q with
      | none => some p.isNone
      | some qv =>
        match p with
        | none => some false
        | some pv => some (decide (pv = qv))
    | _ => some false
  | .jfloat p, v =>
    match v with
    | .jnil => some p.isNone
    | .jfloat q =>
      match q with
      | none => some p.isNone
      | some qv =>
        match p with
        | none => some false
        | some pv => some (decide (pv = qv))
    | _ => some false
  | .jbool p, v =>
    match v with
    | .jnil => some p.isNone
    | .jbool q =>
      match q with
      | none => some p.isNone
      | some qv =>
        match p with
        | none => some false
        | some pv => some (decide (pv = qv))
    | _ => some false
  | .jstring p, v =>
    match v with
    | .jnil => some (strNullB p)
    | .jstring q =>
      if strNullB q then some (strNullB p)
      else some (!strNullB p && p == q)
    | _ => some false
  | .jarray p, v =>
    match v with
    | .jnil => some p.isNone
    | .jarray q =>
      match q with
      | none => some p.isNone
      | some ql =>
        match p with
        | none => some false
        | some pl => if pl.length ≠ ql.length then some false else arrEqLoop pl ql
    | _ => some false
  | .jobject p, v =>
    match v with
    | .jnil => some p.isNone
    | .jobject q =>
      match q with
      | none => some p.isNone
      | some qm =>
        match p with
        | none => some false
        | some pm =>
          match cmpMap pm qm with
          | none => none
          | some false => some false
          | some true => cmpMap qm pm
    | _ => some false
termination_by a b => sizeOf a + sizeOf b
decreasing_by
  all_goals simp_wf
  all_goals omega

/-- Element loop of `JsonArray.Equal` (runs under the length equality check;
an index past the second list would fault, modelled `none`).  Unlike
`cmpMap`, the source guards `v == nil || o == nil` here before calling
`Equal`, so a nil-interface slot yields `false`, never a panic. -/
def arrEqLoop : List JVal → List JVal → Option Bool
  | [], _ => some true
  | _ :: _, [] => none
  | v :: vs, o :: os =>
    if v.IsNull && o.IsNull then arrEqLoop vs os
    else if isJnil v then some false
    else if isJnil o then some false
    else
      match v.Equal o with
      | none => none
      | some false => some false
      | some true => arrEqLoop vs os
termination_by l1 l2 => sizeOf l1 + sizeOf l2
decreasing_by
  all_goals simp_wf
  all_goals omega

/-- `cmpMap` from `json_values.go`: length check then one-directional walk. -/
def cmpMap (m1 m2 : List (Str × JVal)) : Option Bool :=
  if m1.length ≠ m2.length then some false else cmpMapLoop m1 m2
termination_by sizeOf m1 + sizeOf m2 + 1
decreasing_by
  all_goals simp_wf
  all_goals omega

/-- The entry walk of `cmpMap`: a nil-interface slot in `m1` whose partner in
`m2` is non-null reaches `v.Equal(o)` on a nil interface — a Go panic. -/
def cmpMapLoop : List (Str × JVal) → List (Str × JVal) → Option Bool
  | [], _ => some true
  | (k, v) :: rest, m2 =>
    match h : List.lookup k m2 with
    | none => some false
    | some o =>
      if v.IsNull && o.IsNull then cmpMapLoop rest m2
      else if isJnil v then none
      else
        match v.Equal o with
        | none => none
        | some false => some false
        | some true => cmpMapLoop rest m2
termination_by m1 m2 => sizeOf m1 + sizeOf m2
decreasing_by
  all_goals simp_wf
  all_goals try (have hsl := sizeOf_lookup h; simp at hsl)
  all_goals omega

end

/-- Model of `unicode.IsPrint`, exact through Latin-1: printable there means
`U+0020`–`U+007E` or `U+00A1`–`U+00FF` minus the soft hyphen `U+00AD` (the
categories L/M/N/P/S plus the ASCII space).  Above Latin-1 the sparse
non-printable code points of the Unicode tables are elided and every code
point is treated as printable; `safeChar` below stops at Latin-1, so no
theorem in this file relies on printability outside the exact range. -/
def goIsPrint (c : Char) : Bool :=
  (' ' ≤ c && c.toNat ≤ 0x7e)
  || (0xa1 ≤ c.toNat && c.toNat ≤ 0xff && c.toNat != 0xad)
  || 0x100 ≤ c.toNat

/-- Per-rune emission of `strconv.Quote` (the `%q` verb): quote and backslash
first, then printable runes verbatim, then the named escapes, then
hexadecimal escapes by rune width.  Under the Latin-1-exact `goIsPrint` the
`\u` arm is reachable only at `U+00AD` and the `\U` arm not at all; no claim
below asserts anything about quoting in the elided region. -/
def quoteChar (c : Char) : Str :=
  if c = '"' then ['\\', '"']
  else if c = '\\' then ['\\', '\\']
  else if goIsPrint c then [c]
  else if c = '\x07' then ['\\', 'a']
  else if c = '\x08' then ['\\', 'b']
  else if c = '\x0c' then ['\\', 'f']
  else if c = '\n' then ['\\', 'n']
  else if c = '\r' then ['\\', 'r']
  else if c = '\t' then ['\\', 't']
  else if c = '\x0b' then ['\\', 'v']
  else if c.toNat < 0x80 then '\\' :: 'x' :: hexPad 2 c.toNat
  else if c.toNat < 0x10000 then '\\' :: 'u' :: hexPad 4 c.toNat
  else '\\' :: 'U' :: hexPad 8 c.toNat

/-- Model of `fmt.Sprintf("%q", s)` / `strconv.Quote`. -/
def quoteGo (s : Str) : Str := '"' :: (s.map quoteChar).flatten ++ ['"']

/-- Model of `strings.Join(r, ", ")`. -/
def joinComma (l : List Str) : Str := List.intercalate [',', ' '] l

/-- Render one object entry, `fmt.Sprintf("%q: %s", k, text)`. -/
def renderEntry (e : Str × Str) : Str := quoteGo e.1 ++ ':' :: ' ' :: e.2

mutual

/-- The `Json` methods of `json_values.go`.  A nil interface slot prints as
`null` (the containers test `o == nil` before calling the method, and the
source prints the same text either way, so `Json .jnil = "null"` folds that
guard in).  Objects render each entry and sort by key — under the map's
key-uniqueness this equals the source's `sort.Strings` over the key set
followed by per-key map indexing. -/
def JVal.Json : JVal → Str
  | .jnil => strL "null"
  | .jint none => strL "null"
  | .jint (some n) => intRepr n
  | .jfloat none => strL "null"
  | .jfloat (some q) => formatF q
  | .jbool none => strL "null"
  | .jbool (some b) => if b then strL "true" else strL "false"
  | .jstring p => if strNullB p then strL "null" else quoteGo (p.getD [])
  | .jarray none => strL "null"
  | .jarray (some l) => '[' :: ' ' :: joinComma (jsonList l) ++ [' ', ']']
  | .jobject none => strL "null"
  | .jobject (some m) =>
    '\x7b' :: ' ' :: joinComma ((sortEntries (jsonEntries m)).map renderEntry)
      ++ [' ', '\x7d']

/-- Element texts of `JsonArray.Json`. -/
def jsonList : List JVal → List Str
  | [] => []
  | v :: vs => v.Json :: jsonList vs

/-- Entry texts of `JsonObject.Json`, key paired with rendered value. -/
def jsonEntries : List (Str × JVal) → List (Str × Str)
  | [] => []
  | (k, v) :: rest => (k, v.Json) :: jsonEntries rest

end

/-- A Go `panic`, tagged with the site that raised it (messages are elided,
no claim inspects them). -/
inductive GoPanic where
  | badHex        -- `getString`: `strconv.ParseInt(hex, 16, 64)` failed
  | badBoolLit    -- `JsonBool.Parse`: literal is neither true nor false
  | selfInsert    -- `JsonObject.Insert`: the "Ooops!" self-reference panic
  | typeMismatch  -- a `Set`/`Insert`/`Append` type switch fell through
deriving DecidableEq

/-- The error families of `json_parsers.go` plus `numError` for the
`strconv` errors that `JsonInt.Parse`/`JsonFloat.Parse` pass through
unwrapped (diagnostic message strings are elided). -/
inductive ErrKind where
  | noValue | badValue | syntaxError | badTail | missedValue | numError
deriving DecidableEq

/-- Is this one of the `SyntaxError`-family values minted by the parser
(everything except the raw `strconv` errors)? -/
def ErrKind.isSyntaxFamily : ErrKind → Bool
  | .numError => false
  | _ => true

/-- The `(v JsonValue, t string, e error)` result triple shared by all parse
routines; Go's zero values are `jnil`, `""`, `nil`. -/
structure PRes where
  v : JVal
  t : Str
  e : Option ErrKind

/-- Abnormal outcomes of running a parse routine: a Go panic, or exhaustion
of the recursion fuel (the fuel is an artifact of the embedding; wrappers
below always supply enough). -/
inductive RunErr where
  | noFuel
  | fatal (p : GoPanic)
deriving DecidableEq

/-- Go map assignment `m[k] = v` on the association-list model: overwrite the
entry if the key is present, otherwise add it. -/
def objInsert (k : Str) (v : JVal) : List (Str × JVal) → List (Str × JVal)
  | [] => [(k, v)]
  | (k', v') :: rest => if k' = k then (k, v) :: rest else (k', v') :: objInsert k v rest

/-- Decode of `string(rune(v))` for the value of a `\uXXXX` escape: invalid
code points (negative, surrogate, out of range) become U+FFFD, as in Go. -/
def decodeRune (v : Int) : Char :=
  if v < 0 then Char.ofNat 0xfffd
  else if 0xd800 ≤ v.toNat && v.toNat ≤ 0xdfff then Char.ofNat 0xfffd
  else if 0x10ffff < v.toNat then Char.ofNat 0xfffd
  else Char.ofNat v.toNat

/-- The UTF-8 byte length of a rune, `len(string(c))` in Go. -/
def utf8Len (c : Char) : Nat :=
  if c.toNat < 0x80 then 1
  else if c.toNat < 0x800 then 2
  else if c.toNat < 0x10000 then 3
  else 4

/-- The UTF-8 byte length of a string, `len(s)` in Go. -/
def strBytes (s : Str) : Nat := (s.map utf8Len).sum

/-- The scanning loop of `getString`: `rest` is the unread part of `s[1:]`,
`i` the index of the next character, `escape`/`unicode`/`hex`/`res` the loop
state.  The source grows `hex` with `hex += string(c)` and fires the decode
at `len(hex) == 4` — a byte count — so the model compares `strBytes`, not the
rune count: a multi-byte rune in the payload can jump the count past four,
in which case the decode never fires and the scan stays in the `\u` state.
Terminating without a closing quote reports `pos = len-1` (or 0 when the
loop never ran), exactly Go's `range` leftovers; those positions are only
ever used after a successful break at a quote. -/
def getStringAux : Str → Nat → Bool → Bool → Str → Str → Except GoPanic (Nat × Str × Bool)
  | [], i, _, _, _, res => .ok (i - 1, res, false)
  | c :: rest, i, escape, unicode, hex, res =>
    if unicode then
      let hex' := hex ++ [c]
      if strBytes hex' = 4 then
        match goParseInt16 hex' with
        | none => .error .badHex
        | some v => getStringAux rest (i + 1) escape false [] (res ++ [decodeRune v])
      else getStringAux rest (i + 1) escape true hex' res
    else if escape then
      if c = 'b' then getStringAux rest (i + 1) false false hex (res ++ ['\x08'])
      else if c = 'f' then getStringAux rest (i + 1) false false hex (res ++ ['\x0c'])
      else if c = 'n' then getStringAux rest (i + 1) false false hex (res ++ ['\n'])
      else if c = 'r' then getStringAux rest (i + 1) false false hex (res ++ ['\r'])
      else if c = 't' then getStringAux rest (i + 1) false false hex (res ++ ['\t'])
      else if c = 'u' then getStringAux rest (i + 1) false true hex res
      else getStringAux rest (i + 1) false false hex (res ++ [c])
    else if c = '\\' then getStringAux rest (i + 1) true false hex res
    else if c = '"' then .ok (i, res, true)
    else getStringAux rest (i + 1) false false hex (res ++ [c])

/-- `getString` from `json_parsers.go`: scan `s[1:]` for the closing quote,
decoding escapes; a malformed 4-character `\u` payload panics. -/
def getString (s : Str) : Except GoPanic (Nat × Str × Bool) :=
  getStringAux (s.drop 1) 0 false false [] []

/-- `parseString` from `json_parsers.go`. -/
def parseString (s : Str) : Except GoPanic PRes :=
  let s := trimSpace s
  if s = [] then .ok ⟨.jnil, [], some .noValue⟩
  else if s.head? ≠ some '"' then .ok ⟨.jnil, [], some .syntaxError⟩
  else
    match getString s with
    | .error p => .error p
    | .ok (i, r, ok) =>
      if !ok then .ok ⟨.jnil, [], some .syntaxError⟩
      else .ok ⟨.jstring (some r), s.drop (i + 2), none⟩

/-- The optional sign step of `parseNumber` (the seed of `intPart` and the
rest of the input). -/
def numSign : Str → Str × Str
  | [] => ([], [])
  | c :: r => if c = '+' || c = '-' then ([c], r) else ([], c :: r)

/-- `parseNumber` from `json_parsers.go`: sign, digit run, then a fractional
digit run only after a dot; the presence of the dot alone decides
Integer versus Float, and conversion is delegated to `JsonInt.Parse` /
`JsonFloat.Parse` (with `new(...)` zero payloads surviving a failed parse). -/
def parseNumber (s : Str) : PRes :=
  let s := trimSpace s
  if s = [] then ⟨.jnil, [], some .noValue⟩
  else
    let p := numSign s
    let intPart := p.1 ++ p.2.takeWhile isDigit
    let t2 := p.2.dropWhile isDigit
    if t2.head? = some '.' then
      let t3 := t2.drop 1
      let t4 := t3.dropWhile isDigit
      match goParseFloat (intPart ++ '.' :: t3.takeWhile isDigit) with
      | some q => ⟨.jfloat (some q), t4, none⟩
      | none => ⟨.jfloat (some 0), t4, some .numError⟩
    else
      match goParseInt64 intPart with
      | some n => ⟨.jint (some n), t2, none⟩
      | none => ⟨.jint (some 0), t2, some .numError⟩

/-- `parseBool` from `json_parsers.go`: keyword prefix match, trimmed tail. -/
def parseBool (s : Str) : PRes :=
  let s := trimSpace s
  if s = [] then ⟨.jnil, [], some .noValue⟩
  else if (strL "true").isPrefixOf s then ⟨.jbool (some true), trimSpace (s.drop 4), none⟩
  else if (strL "false").isPrefixOf s then ⟨.jbool (some false), trimSpace (s.drop 5), none⟩
  else ⟨.jnil, s, some .badValue⟩

/-- `parseNull` from `json_parsers.go`: the value stays a nil interface. -/
def parseNull (s : Str) : PRes :=
  let s := trimSpace s
  if s = [] then ⟨.jnil, [], some .noValue⟩
  else if (strL "null").isPrefixOf s then ⟨.jnil, trimSpace (s.drop 4), none⟩
  else ⟨.jnil, s, some .badValue⟩

mutual

/-- `ParseValue` from `json_parsers.go`, fuelled: trim, dispatch on the first
character.  The `default` arm returns `BadValue` with the zero tail `""`. -/
def parseValueF : Nat → Str → Except RunErr PRes
  | 0, _ => .error .noFuel
  | f + 1, s =>
    let s := trimSpace s
    match s with
    | [] => .ok ⟨.jnil, [], some .noValue⟩
    | c :: _ =>
      if c = '\x7b' then parseObjectF f s
      else if c = '[' then parseArrayF f s
      else if c = '"' then
        match parseString s with
        | .error p => .error (.fatal p)
        | .ok r => .ok r
      else if c = '-' || c = '+' || isDigit c then .ok (parseNumber s)
      else if c = 't' || c = 'f' then .ok (parseBool s)
      else if c = 'n' then .ok (parseNull s)
      else .ok ⟨.jnil, [], some .badValue⟩

/-- `parseObject` from `json_parsers.go` up to its entry loop: empty and
non-`{` inputs fail; otherwise a fresh object (nil backing map) accumulates
entries in the loop. -/
def parseObjectF : Nat → Str → Except RunErr PRes
  | 0, _ => .error .noFuel
  | f + 1, s =>
    let s := trimSpace s
    if s = [] then .ok ⟨.jnil, [], some .noValue⟩
    else if s.head? ≠ some '\x7b' then .ok ⟨.jnil, s, some .syntaxError⟩
    else objLoopF f (trimSpace (s.drop 1)) none

/-- The entry loop of `parseObject`: quoted key, colon, recursive value,
then `}` (done), `,` (continue; `MissedValue` if nothing follows) or junk
(`BadTail`).  Falling off the end of the input leaves `ok == false`, reported
as the no-closing-brace `SyntaxError`.  Error returns carry the object built
so far and the tail at the point of failure, as in the source. -/
def objLoopF : Nat → Str → Option (List (Str × JVal)) → Except RunErr PRes
  | 0, _, _ => .error .noFuel
  | f + 1, t, acc =>
    if t = [] then .ok ⟨.jobject acc, [], some .syntaxError⟩
    else if t.head? ≠ some '"' then .ok ⟨.jobject acc, t, some .syntaxError⟩
    else
      match getString t with
      | .error p => .error (.fatal p)
      | .ok (xi, name, sok) =>
        if !sok then .ok ⟨.jobject acc, t, some .syntaxError⟩
        else
          let t1 := trimSpace (t.drop (xi + 2))
          if t1 = [] || t1.head? ≠ some ':' then .ok ⟨.jobject acc, t1, some .syntaxError⟩
          else
            let t2 := trimSpace (t1.drop 1)
            if t2 = [] then .ok ⟨.jobject acc, t2, some .syntaxError⟩
            else
              match parseValueF f t2 with
              | .error r => .error r
              | .ok res =>
                if res.e.isSome then .ok ⟨.jobject acc, res.t, res.e⟩
                else
                  let acc' := some (objInsert name res.v (acc.getD []))
                  let t3 := trimSpace res.t
                  if t3 = [] then .ok ⟨.jobject acc', [], some .syntaxError⟩
                  else if t3.head? = some '\x7d' then .ok ⟨.jobject acc', trimSpace (t3.drop 1), none⟩
                  else if t3.head? = some ',' then
                    let t4 := trimSpace (t3.drop 1)
                    if t4 = [] then .ok ⟨.jobject acc', [], some .missedValue⟩
                    else objLoopF f t4 acc'
                  else .ok ⟨.jobject acc', t3, some .badTail⟩

/-- `parseArray` from `json_parsers.go` up to its element loop. -/
def parseArrayF : Nat → Str → Except RunErr PRes
  | 0, _ => .error .noFuel
  | f + 1, s =>
    let s := trimSpace s
    if s = [] then .ok ⟨.jnil, [], some .noValue⟩
    else if s.head? ≠ some '[' then .ok ⟨.jnil, s, some .syntaxError⟩
    else arrLoopF f (trimSpace (s.drop 1)) none

/-- The element loop of `parseArray`: recursive value then `]`, `,` or junk;
mirrors `objLoopF`'s exits. -/
def arrLoopF : Nat → Str → Option (List JVal) → Except RunErr PRes
  | 0, _, _ => .error .noFuel
  | f + 1, t, acc =>
    if t = [] then .ok ⟨.jarray acc, [], some .syntaxError⟩
    else
      match parseValueF f t with
      | .error r => .error r
      | .ok res =>
        if res.e.isSome then .ok ⟨.jarray acc, res.t, res.e⟩
        else
          let acc' := some (acc.getD [] ++ [res.v])
          let t3 := trimSpace res.t
          if t3 = [] then .ok ⟨.jarray acc', [], some .syntaxError⟩
          else if t3.head? = some ']' then .ok ⟨.jarray acc', trimSpace (t3.drop 1), none⟩
          else if t3.head? = some ',' then
            let t4 := trimSpace (t3.drop 1)
            if t4 = [] then .ok ⟨.jarray acc', [], some .missedValue⟩
            else arrLoopF f t4 acc'
          else .ok ⟨.jarray acc', t3, some .badTail⟩

end

/-- `ParseValue` with enough fuel for its input (at least one character is
consumed for every three units of fuel spent). -/
def ParseValue (s : Str) : Except RunErr PRes := parseValueF (3 * s.length + 3) s

/-- `parseObject` called directly (as `JsonObject.Parse` does). -/
def parseObjectTop (s : Str) : Except RunErr PRes := parseObjectF (3 * s.length + 3) s

/-- `parseArray` called directly (as `JsonArray.Parse` does). -/
def parseArrayTop (s : Str) : Except RunErr PRes := parseArrayF (3 * s.length + 3) s

/-- `JsonInt.Parse`: `strconv.ParseInt` then `Set` on success; the receiver's
payload (a non-nil `*JsonInt`) is untouched on failure and the `strconv`
error is returned unwrapped. -/
def JsonInt.Parse (st : Int) (s : Str) : Int × Option ErrKind :=
  match goParseInt64 s with
  | some v => (v, none)
  | none => (st, some .numError)

/-- The `case string:` arm of `JsonInt.Set`: `self.Parse(v.(string)); return
self` — the parse error is discarded. -/
def JsonInt.SetStr (st : Int) (s : Str) : Int := (JsonInt.Parse st s).1

/-- `JsonFloat.Parse`: `strconv.ParseFloat` then direct assignment. -/
def JsonFloat.Parse (st : Rat) (s : Str) : Rat × Option ErrKind :=
  match goParseFloat s with
  | some v => (v, none)
  | none => (st, some .numError)

/-- The `case string:` arm of `JsonFloat.Set`: the parse error is
discarded. -/
def JsonFloat.SetStr (st : Rat) (s : Str) : Rat := (JsonFloat.Parse st s).1

/-- The `boolStringValues` literal table. -/
def boolStringValues (s : Str) : Option Bool :=
  if s = strL "true" then some true
  else if s = strL "false" then some false
  else none

/-- `JsonBool.Parse`: looks the trimmed, lower-cased input up in
`boolStringValues` and panics when it is absent (it never returns an error
value). -/
def JsonBool.Parse (st : Bool) (s : Str) : Except GoPanic (Bool × Option ErrKind) :=
  match boolStringValues (lowerS (trimSpace s)) with
  | some v => .ok (v, none)
  | none => .error .badBoolLit

/-- `JsonString.Parse`: `parseString`, whole-input check, then `Set` (which
copies the parsed payload).  The receiver keeps its payload on every
non-panicking failure. -/
def JsonString.Parse (st : Str) (s : Str) : Except GoPanic (Str × Option ErrKind) :=
  match parseString s with
  | .error p => .error p
  | .ok r =>
    if h : r.e.isSome then .ok (st, r.e)
    else if r.t ≠ [] then .ok (st, some .syntaxError)
    else
      match r.v with
      | .jstring (some p) => .ok (p, none)
      | _ => .error .typeMismatch

/-- `JsonArray.Parse`: `parseArray`, whole-input check, then `Set` (which
replaces the backing slice wholesale). -/
def JsonArray.Parse (st : Option (List JVal)) (s : Str) :
    Except RunErr (Option (List JVal) × Option ErrKind) :=
  match parseArrayTop s with
  | .error r => .error r
  | .ok r =>
    if r.e.isSome then .ok (st, r.e)
    else if r.t ≠ [] then .ok (st, some .syntaxError)
    else
      match r.v with
      | .jarray p => .ok (p, none)
      | _ => .error (.fatal .typeMismatch)

/-- `JsonObject.Parse`: `parseObject`, whole-input check, then `Set`. -/
def JsonObject.Parse (st : Option (List (Str × JVal))) (s : Str) :
    Except RunErr (Option (List (Str × JVal)) × Option ErrKind) :=
  match parseObjectTop s with
  | .error r => .error r
  | .ok r =>
    if r.e.isSome then .ok (st, r.e)
    else if r.t ≠ [] then .ok (st, some .syntaxError)
    else
      match r.v with
      | .jobject p => .ok (p, none)
      | _ => .error (.fatal .typeMismatch)

/-- The argument of `JsonObject.Insert`: Go's literal `nil`, the receiver
itself (the case Go detects by pointer equality `self == v.(*JsonObject)`),
or some other value. -/
inductive InsertArg where
  | goNil
  | selfRef
  | val (v : JVal)

/-- `JsonObject.Insert`: a nil backing map is first replaced by a fresh empty
one, then a nil argument stores a nil slot, the receiver itself panics
(`"Ooops!"`) before any entry is written, and anything else is stored. -/
def JsonObject.Insert (st : Option (List (Str × JVal))) (k : Str) (a : InsertArg) :
    Option (List (Str × JVal)) × Option GoPanic :=
  let m := st.getD []
  match a with
  | .goNil => (some (objInsert k .jnil m), none)
  | .selfRef => (some m, some .selfInsert)
  | .val v => (some (objInsert k v m), none)

/-- C9: parsing the empty containers is rejected.  `parseObject` demands a
quoted key right after the brace and `parseArray` recursively parses a value
right after the bracket, so `"{}"` and `"[]"` return non-nil errors (through
the direct routines and through `ParseValue` alike), even though both are
valid JSON. -/
theorem C9_empty_containers_rejected :
    parseObjectTop (strL "\x7b\x7d") = .ok ⟨.jobject none, strL "\x7d", some .syntaxError⟩
    ∧ parseArrayTop (strL "[]") = .ok ⟨.jarray none, [], some .badValue⟩
    ∧ ParseValue (strL "\x7b\x7d") = .ok ⟨.jobject none, strL "\x7d", some .syntaxError⟩
    ∧ ParseValue (strL "[]") = .ok ⟨.jarray none, [], some .badValue⟩ :=
  ⟨rfl, rfl, rfl, rfl⟩

/-- C6: a trailing comma before the closing brace and a missing closing brace
both make `parseObject` fail with a `SyntaxError`-family error (the value
slot carries only the partially built object next to a non-nil error). -/
theorem C6_trailing_comma_and_unterminated_object_fail :
    parseObjectTop (strL "\x7b \"a\": 1, \x7d")
      = .ok ⟨.jobject (some [(strL "a", .jint (some 1))]), strL "\x7d", some .syntaxError⟩
    ∧ parseObjectTop (strL "\x7b \"a\": 1")
      = .ok ⟨.jobject (some [(strL "a", .jint (some 1))]), [], some .syntaxError⟩
    ∧ ErrKind.syntaxError.isSyntaxFamily = true :=
  ⟨rfl, rfl, rfl⟩

/-- Refinement-side scanner following the spec's words: after trimming, an
optional sign, and the run of leading digits, is the next character a dot? -/
def hasDotAfterDigits (s : Str) : Bool :=
  ((numSign (trimSpace s)).2.dropWhile isDigit).head? = some '.'

/-- C4: `parseNumber` decides Integer versus Float solely by the presence of
a dot after the integer-digit run — `"1e10"` comes back as the Integer 1 with
tail `"e10"` and no error, and on every non-empty input the variant of the
returned value is Float exactly when that dot is present (independently of
whether the numeric conversion then succeeds). -/
theorem C4_dot_decides_int_vs_float :
    parseNumber (strL "1e10") = ⟨.jint (some 1), strL "e10", none⟩
    ∧ ∀ s : Str, trimSpace s ≠ [] →
        (parseNumber s).v.kind
          = (if hasDotAfterDigits s then VKind.vfloat else VKind.vint) := by
  refine ⟨rfl, ?_⟩
  intro s hs
  cases h : trimSpace s with
  | nil => exact absurd h hs
  | cons c r =>
    simp only [parseNumber, hasDotAfterDigits, h, reduceCtorEq, if_false]
    by_cases hd : ((numSign (c :: r)).2.dropWhile isDigit).head? = some '.'
    · simp only [hd, decide_eq_true_eq, eq_self_iff_true, if_true]
      split <;> rfl
    · simp only [hd, decide_eq_true_eq, if_false]
      split <;> rfl

/-- Witness for the universally quantified part of C4. -/
theorem C4_dot_decides_int_vs_float_witness :
    trimSpace (strL "1e10") ≠ []
    ∧ (parseNumber (strL "1e10")).v.kind
        = (if hasDotAfterDigits (strL "1e10") then VKind.vfloat else VKind.vint) :=
  ⟨by decide, C4_dot_decides_int_vs_float.2 (strL "1e10") (by decide)⟩

/-- C10: when the underlying `strconv` conversion rejects the string, the
string arm of `JsonInt.Set` / `JsonFloat.Set` swallows the error `Parse`
returned: the payload is unchanged and the receiver is handed back with
neither an error value nor a panic (the `Parse` components below record the
discarded error). -/
theorem C10_set_discards_parse_error :
    ∀ (sti : Int) (stf : Rat) (s1 s2 : Str),
      goParseInt64 s1 = none → goParseFloat s2 = none →
      JsonInt.SetStr sti s1 = sti
      ∧ JsonFloat.SetStr stf s2 = stf
      ∧ JsonInt.Parse sti s1 = (sti, some .numError)
      ∧ JsonFloat.Parse stf s2 = (stf, some .numError) := by
  intro sti stf s1 s2 h1 h2
  refine ⟨?_, ?_, ?_, ?_⟩ <;>
    simp [JsonInt.SetStr, JsonFloat.SetStr, JsonInt.Parse, JsonFloat.Parse, h1, h2]

/-- Witness for C10 at `st = 5` / `st = 0` and the rejected string "abc". -/
theorem C10_set_discards_parse_error_witness :
    goParseInt64 (strL "abc") = none
    ∧ goParseFloat (strL "abc") = none
    ∧ JsonInt.SetStr 5 (strL "abc") = 5
    ∧ JsonFloat.SetStr 0 (strL "abc") = 0 :=
  ⟨by decide, by decide,
    (C10_set_discards_parse_error 5 0 (strL "abc") (strL "abc") (by decide) (by decide)).1,
    (C10_set_discards_parse_error 5 0 (strL "abc") (strL "abc") (by decide) (by decide)).2.1⟩

/-- C7: inserting an object into itself (under any key, from any prior state)
panics with the self-reference guard before any entry is written: the
resulting backing map holds exactly the entries held before (a nil backing
map has, as a side effect of the guard's position, already been replaced by
an empty one). -/
theorem C7_self_insert_rejected_entries_kept :
    ∀ (st : Option (List (Str × JVal))) (k : Str),
      (JsonObject.Insert st k .selfRef).2 = some .selfInsert
      ∧ (JsonObject.Insert st k .selfRef).1 = some (st.getD [])
      ∧ ∀ k' : Str,
          List.lookup k' (((JsonObject.Insert st k .selfRef).1).getD [])
            = List.lookup k' (st.getD []) := by
  intro st k
  exact ⟨rfl, rfl, fun _ => rfl⟩

/-- C2 counterexample: `JsonBool.Parse` on `"abc"` (neither `true` nor
`false`) panics instead of returning a recoverable error value, so the claim
fails exactly at the case it singles out. -/
theorem C2_counterexample_bool_parse_panics :
    JsonBool.Parse true (strL "abc") = .error .badBoolLit := rfl

/-- C2 (amended): the numeric, string, array and object `Parse` methods
return a recoverable error and leave the receiver untouched whenever parsing
fails or leaves a non-empty tail (the numeric variants pass the `strconv`
error through unwrapped rather than minting a `SyntaxError`-family value);
`JsonBool.Parse`, by contrast, panics on any input that is not, after
trimming and lower-casing, exactly `true` or `false` — also without touching
the receiver, which the panic never reaches. -/
theorem C2_parse_failures_amended :
    (∀ (st : Int) (s : Str), goParseInt64 s = none →
      JsonInt.Parse st s = (st, some .numError))
    ∧ (∀ (st : Rat) (s : Str), goParseFloat s = none →
      JsonFloat.Parse st s = (st, some .numError))
    ∧ (∀ (st s : Str) (r : PRes), parseString s = .ok r →
        (r.e.isSome ∨ r.t ≠ []) →
        ∃ k, JsonString.Parse st s = .ok (st, some k))
    ∧ (∀ (st : Option (List JVal)) (s : Str) (r : PRes), parseArrayTop s = .ok r →
        (r.e.isSome ∨ r.t ≠ []) →
        ∃ k, JsonArray.Parse st s = .ok (st, some k))
    ∧ (∀ (st : Option (List (Str × JVal))) (s : Str) (r : PRes), parseObjectTop s = .ok r →
        (r.e.isSome ∨ r.t ≠ []) →
        ∃ k, JsonObject.Parse st s = .ok (st, some k))
    ∧ (∀ (st : Bool) (s : Str), boolStringValues (lowerS (trimSpace s)) = none →
        JsonBool.Parse st s = .error .badBoolLit) := by
  refine ⟨?_, ?_, ?_, ?_, ?_, ?_⟩
  · intro st s h; simp [JsonInt.Parse, h]
  · intro st s h; simp [JsonFloat.Parse, h]
  · intro st s r hr hfail
    simp only [JsonString.Parse, hr]
    rcases hfail with he | ht
    · obtain ⟨k, hk⟩ := Option.isSome_iff_exists.mp he
      exact ⟨k, by simp [he, hk]⟩
    · by_cases he : r.e.isSome
      · obtain ⟨k, hk⟩ := Option.isSome_iff_exists.mp he
        exact ⟨k, by simp [he, hk]⟩
      · exact ⟨.syntaxError, by simp [he, ht]⟩
  · intro st s r hr hfail
    simp only [JsonArray.Parse, hr]
    rcases hfail with he | ht
    · obtain ⟨k, hk⟩ := Option.isSome_iff_exists.mp he
      exact ⟨k, by simp [he, hk]⟩
    · by_cases he : r.e.isSome
      · obtain ⟨k, hk⟩ := Option.isSome_iff_exists.mp he
        exact ⟨k, by simp [he, hk]⟩
      · exact ⟨.syntaxError, by simp [he, ht]⟩
  · intro st s r hr hfail
    simp only [JsonObject.Parse, hr]
    rcases hfail with he | ht
    · obtain ⟨k, hk⟩ := Option.isSome_iff_exists.mp he
      exact ⟨k, by simp [he, hk]⟩
    · by_cases he : r.e.isSome
      · obtain ⟨k, hk⟩ := Option.isSome_iff_exists.mp he
        exact ⟨k, by simp [he, hk]⟩
      · exact ⟨.syntaxError, by simp [he, ht]⟩
  · intro st s h; simp [JsonBool.Parse, h]

/-- Witness for C2 (amended): the hypotheses are dischargeable and the
conclusions hold at concrete rejected inputs. -/
theorem C2_parse_failures_amended_witness :
    JsonInt.Parse 7 (strL "1x") = (7, some .numError)
    ∧ JsonBool.Parse false (strL "truex") = .error .badBoolLit
    ∧ ∃ k, JsonString.Parse (strL "old") (strL "\"a\" tail") = .ok (strL "old", some k) :=
  ⟨C2_parse_failures_amended.1 7 (strL "1x") (by decide),
   C2_parse_failures_amended.2.2.2.2.2 false (strL "truex") (by decide),
   C2_parse_failures_amended.2.2.1 (strL "old") (strL "\"a\" tail")
     ⟨.jstring (some (strL "a")), strL " tail", none⟩ (by rfl) (Or.inr (by decide))⟩

/-- A character that the `getString` scanner passes through unchanged in its
base state (neither a backslash nor a quote). -/
def plainChar (c : Char) : Bool := c ≠ '\\' && c ≠ '"'

/-- The scanner walks over plain characters accumulating them. -/
theorem getStringAux_plain :
    ∀ (pre : Str), pre.all plainChar = true → ∀ (rest : Str) (i : Nat) (res : Str),
      getStringAux (pre ++ rest) i false false [] res
        = getStringAux rest (i + pre.length) false false [] (res ++ pre) := by
  intro pre
  induction pre with
  | nil => intro _ rest i res; simp
  | cons c cs ih =>
    intro h rest i res
    simp only [List.all_cons, Bool.and_eq_true] at h
    obtain ⟨hc, hcs⟩ := h
    simp only [plainChar, Bool.and_eq_true, decide_eq_true_eq, bne_iff_ne, ne_eq] at hc
    rw [List.cons_append, getStringAux]
    simp only [if_neg, Bool.false_eq_true, if_false]
    rw [if_neg (by simpa using hc.1), if_neg (by simpa using hc.2), ih hcs]
    have harith : i + 1 + cs.length = i + (cs.length + 1) := by omega
    simp [List.append_assoc, harith]

theorem utf8Len_pos (c : Char) : 1 ≤ utf8Len c := by
  unfold utf8Len
  split_ifs <;> omega

theorem strBytes_append (a b : Str) : strBytes (a ++ b) = strBytes a + strBytes b := by
  simp [strBytes]

theorem strBytes_cons (c : Char) (s : Str) :
    strBytes (c :: s) = utf8Len c + strBytes s := by
  simp [strBytes]

/-- In the `\u` state, a payload whose byte count lands exactly on four
without parsing in base 16 ends in the fatal path (the decode fires on the
rune that completes the fourth byte). -/
theorem getStringAux_hexrun :
    ∀ (hs hex rest : Str) (i : Nat) (res : Str),
      strBytes (hex ++ hs) = 4 → hs ≠ [] → goParseInt16 (hex ++ hs) = none →
      getStringAux (hs ++ rest) i false true hex res = .error .badHex := by
  intro hs
  induction hs with
  | nil => intro hex rest i res _ h; exact absurd rfl h
  | cons c cs ih =>
    intro hex rest i res hbytes _ hparse
    rw [List.cons_append, getStringAux, if_pos rfl]
    cases cs with
    | nil =>
      rw [if_pos hbytes, hparse]
    | cons d ds =>
      have hca : ((hex ++ [c]) ++ (d :: ds) : Str) = hex ++ (c :: d :: ds) := by simp
      have hne : strBytes (hex ++ [c]) ≠ 4 := by
        have h1 := utf8Len_pos d
        rw [strBytes_append, strBytes_cons, strBytes_cons] at hbytes
        rw [strBytes_append]
        have h2 : strBytes [c] = utf8Len c := by simp [strBytes]
        rw [h2]
        omega
      rw [if_neg hne]
      exact ih (hex ++ [c]) rest (i + 1) res (by rw [hca]; exact hbytes) (by simp)
        (by rw [hca]; exact hparse)

/-- In the `\u` state, if no nonempty prefix of the remaining input brings
the byte count to exactly four, the decode never fires: the scan consumes
everything (the closing quote included) and ends with `ok == false`. -/
theorem getStringAux_hexnofire :
    ∀ (hs hex : Str) (i : Nat) (res : Str),
      (∀ p ∈ hs.inits, p ≠ [] → strBytes (hex ++ p) ≠ 4) →
      ∃ p r, getStringAux hs i false true hex res = .ok (p, r, false) := by
  intro hs
  induction hs with
  | nil => intro hex i res _; exact ⟨i - 1, res, rfl⟩
  | cons c cs ih =>
    intro hex i res h
    rw [getStringAux, if_pos rfl]
    have hc1 : ([c] : Str) ∈ (c :: cs).inits := by
      rw [List.mem_inits]
      exact List.cons_prefix_cons.mpr ⟨rfl, List.nil_prefix⟩
    have hne : strBytes (hex ++ [c]) ≠ 4 := h [c] hc1 (by simp)
    rw [if_neg hne]
    apply ih (hex ++ [c]) (i + 1) res
    intro p hp hpne
    have hca : ((hex ++ [c]) ++ p : Str) = hex ++ (c :: p) := by simp
    rw [hca]
    refine h (c :: p) ?_ (by simp)
    rw [List.mem_inits] at hp ⊢
    exact List.cons_prefix_cons.mpr ⟨rfl, hp⟩

/-- C3 counterexample: on the spec's own test input `"abc\u12"` the closing
quote is swallowed by the `\u` state and the input ends after only three
collected characters, so `parseString` returns the recoverable unterminated-
string `SyntaxError` — the fatal path is never reached. -/
theorem C3_counterexample_truncated_escape_recoverable :
    parseString (strL "\"abc\\u12\"") = .ok ⟨.jnil, [], some .syntaxError⟩ := rfl

/-- C3 (amended): whether a malformed `\uXXXX` escape is fatal is decided by
the source's byte count of the scanned payload (the closing quote and
whatever follows count toward it, and a multi-byte rune contributes its UTF-8
width): the panic fires exactly when the accumulated bytes land on four with
the collected characters not a valid base-16 payload; when the byte count
never lands on four — because the input ends first, as in `"abc\u12"` where
the closing quote is the third byte, or because a multi-byte rune jumps the
count past four — the scan merely fails to find a closing quote and
`parseString` returns a recoverable `SyntaxError`. -/
theorem C3_malformed_unicode_escape_amended :
    (∀ (pre hs rest : Str),
        pre.all plainChar = true →
        strBytes hs = 4 → goParseInt16 hs = none →
        getString ('"' :: pre ++ '\\' :: 'u' :: (hs ++ rest)) = .error .badHex)
    ∧ (∀ pre hs : Str, pre.all plainChar = true →
        (∀ p ∈ hs.inits, p ≠ [] → strBytes p ≠ 4) →
        ∃ p r, getString ('"' :: pre ++ '\\' :: 'u' :: hs) = .ok (p, r, false))
    ∧ parseString (strL "\"abc\\u12\"") = .ok ⟨.jnil, [], some .syntaxError⟩ := by
  refine ⟨?_, ?_, rfl⟩
  · intro pre hs rest hpre hbytes hparse
    have hne : hs ≠ [] := by
      intro h
      rw [h] at hbytes
      simp [strBytes] at hbytes
    show getStringAux (pre ++ '\\' :: 'u' :: (hs ++ rest)) 0 false false [] []
      = .error .badHex
    rw [getStringAux_plain pre hpre]
    rw [getStringAux]
    rw [if_neg (by simp), if_neg (by simp), if_pos rfl]
    rw [getStringAux]
    rw [if_neg (by simp), if_pos rfl, if_neg (by simp), if_neg (by simp),
        if_neg (by simp), if_neg (by simp), if_neg (by simp), if_pos rfl]
    exact getStringAux_hexrun hs [] rest _ _ (by simpa using hbytes) hne
      (by simpa using hparse)
  · intro pre hs hpre h
    show ∃ p r, getStringAux (pre ++ '\\' :: 'u' :: hs) 0 false false [] []
      = .ok (p, r, false)
    rw [getStringAux_plain pre hpre]
    rw [getStringAux]
    rw [if_neg (by simp), if_neg (by simp), if_pos rfl]
    rw [getStringAux]
    rw [if_neg (by simp), if_pos rfl, if_neg (by simp), if_neg (by simp),
        if_neg (by simp), if_neg (by simp), if_neg (by simp), if_pos rfl]
    exact getStringAux_hexnofire hs [] _ _
      (fun p hp hpne => by simpa using h p hp hpne)

/-- Witness for C3 (amended): `"ab\u12g4"` panics (the four payload bytes
`12g4` are not hexadecimal), while `"ab\u12"` ends with `ok == false` (only
`1`, `2` and the closing quote — three bytes — are ever collected). -/
theorem C3_malformed_unicode_escape_amended_witness :
    getString (strL "\"ab\\u12g4\"") = .error .badHex
    ∧ ∃ p r, getString (strL "\"ab\\u12\"") = .ok (p, r, false) :=
  ⟨C3_malformed_unicode_escape_amended.1 (strL "ab") ['1', '2', 'g', '4'] ['"']
      (by decide) (by decide) (by decide),
   C3_malformed_unicode_escape_amended.2.1 (strL "ab") ['1', '2', '"']
      (by decide) (by decide)⟩

theorem strLt_irrefl (a : Str) : strLt a a = false := by
  induction a with
  | nil => rfl
  | cons c cs ih => simp [strLt, ih]

theorem strLt_trans : ∀ {a b c : Str}, strLt a b = true → strLt b c = true → strLt a c = true := by
  intro a
  induction a with
  | nil =>
    intro b c hab hbc
    cases b with
    | nil => exact hbc
    | cons d ds => cases c with
      | nil => simp [strLt] at hbc
      | cons e es => rfl
  | cons x xs ih =>
    intro b c hab hbc
    cases b with
    | nil => simp [strLt] at hab
    | cons d ds =>
      cases c with
      | nil => simp [strLt] at hbc
      | cons e es =>
        simp only [strLt] at hab hbc ⊢
        by_cases h1 : x < d
        · by_cases h2 : d < e
          · rw [if_pos (lt_trans h1 h2)]
          · by_cases h3 : d = e
            · subst h3; rw [if_pos h1]
            · rw [if_neg h2, if_neg h3] at hbc
              simp at hbc
        · rw [if_neg h1] at hab
          by_cases h3 : x = d
          · subst h3
            rw [if_pos rfl] at hab
            by_cases h2 : x < e
            · rw [if_pos h2]
            · rw [if_neg h2] at hbc ⊢
              by_cases h4 : x = e
              · subst h4
                rw [if_pos rfl] at hbc ⊢
                exact ih hab hbc
              · rw [if_neg h4] at hbc
                simp at hbc
          · rw [if_neg h3] at hab
            simp at hab

theorem strLt_asymm {a b : Str} (h1 : strLt a b = true) (h2 : strLt b a = true) : False := by
  have := strLt_trans h1 h2
  rw [strLt_irrefl] at this
  exact Bool.false_ne_true this

theorem strLt_total : ∀ a b : Str, strLt a b = true ∨ a = b ∨ strLt b a = true := by
  intro a
  induction a with
  | nil =>
    intro b
    cases b with
    | nil => exact Or.inr (Or.inl rfl)
    | cons d ds => exact Or.inl rfl
  | cons c cs ih =>
    intro b
    cases b with
    | nil => exact Or.inr (Or.inr rfl)
    | cons d ds =>
      rcases lt_trichotomy c d with h | h | h
      · exact Or.inl (by simp [strLt, h])
      · subst h
        rcases ih ds with h' | h' | h'
        · exact Or.inl (by simp [strLt, h'])
        · exact Or.inr (Or.inl (by rw [h']))
        · exact Or.inr (Or.inr (by simp [strLt, h']))
      · exact Or.inr (Or.inr (by simp [strLt, h]))

/-- Strict key order on entries (used only to show sorted lists of distinct
keys are unique). -/
def keyLt {β : Type} (x y : Str × β) : Prop := strLt x.1 y.1 = true

instance {β : Type} : IsTotal (Str × β) keyLe :=
  ⟨fun x y => by
    rcases strLt_total x.1 y.1 with h | h | h
    · exact Or.inl (Or.inl h)
    · exact Or.inl (Or.inr h)
    · exact Or.inr (Or.inl h)⟩

instance {β : Type} : IsTrans (Str × β) keyLe :=
  ⟨fun x y z hxy hyz => by
    rcases hxy with h1 | h1 <;> rcases hyz with h2 | h2
    · exact Or.inl (strLt_trans h1 h2)
    · exact Or.inl (h2 ▸ h1)
    · exact Or.inl (h1 ▸ h2)
    · exact Or.inr (h1.trans h2)⟩

instance {β : Type} : IsAntisymm (Str × β) keyLt :=
  ⟨fun _ _ h1 h2 => (strLt_asymm h1 h2).elim⟩

theorem sortEntries_perm (l : List (Str × Str)) : (sortEntries l).Perm l :=
  List.perm_insertionSort keyLe l

theorem sorted_sortEntries (l : List (Str × Str)) : List.Sorted keyLe (sortEntries l) :=
  List.sorted_insertionSort keyLe l

/-- A `keyLe`-sorted entry list with pairwise-distinct keys is strictly
sorted. -/
theorem sorted_keyLt_of_nodup {l : List (Str × Str)}
    (hs : List.Sorted keyLe l) (hn : (l.map Prod.fst).Nodup) :
    List.Sorted keyLt l := by
  rw [List.Nodup, List.pairwise_map] at hn
  exact (hs.and hn).imp (fun h => by
    rcases h with ⟨h1 | h1, h2⟩
    · exact h1
    · exact absurd h1 h2)

/-- Sorting is invariant under permutation of the entries when keys are
pairwise distinct (so the serialized text cannot depend on Go's map
iteration order). -/
theorem sortEntries_eq_of_perm {l1 l2 : List (Str × Str)}
    (hp : l1.Perm l2) (hn : (l1.map Prod.fst).Nodup) :
    sortEntries l1 = sortEntries l2 := by
  have hperm : (sortEntries l1).Perm (sortEntries l2) :=
    (sortEntries_perm l1).trans (hp.trans (sortEntries_perm l2).symm)
  have hn1 : ((sortEntries l1).map Prod.fst).Nodup :=
    (((sortEntries_perm l1).map Prod.fst).nodup_iff).mpr hn
  have hn2 : ((sortEntries l2).map Prod.fst).Nodup :=
    ((hperm.map Prod.fst).nodup_iff).mp hn1
  exact List.eq_of_perm_of_sorted hperm
    (sorted_keyLt_of_nodup (sorted_sortEntries l1) hn1)
    (sorted_keyLt_of_nodup (sorted_sortEntries l2) hn2)

theorem jsonEntries_eq_map (m : List (Str × JVal)) :
    jsonEntries m = m.map fun e => (e.1, e.2.Json) := by
  induction m with
  | nil => rfl
  | cons e rest ih => cases e; simp [jsonEntries, ih]

/-- C5: serializing a non-null object prints the entries in ascending
(byte-lexicographic) key order, so the text is a deterministic function of
the map contents: any two storage orders of the same entries (Go map
iteration order is arbitrary) serialize to the identical string, the entry
sequence actually printed is key-sorted, and the output has the
`{ "k1": v1, "k2": v2, ... }` shape built from that sorted sequence. -/
theorem C5_object_json_sorted_deterministic :
    ∀ m1 m2 : List (Str × JVal), m1.Perm m2 → (m1.map Prod.fst).Nodup →
      (JVal.jobject (some m1)).Json = (JVal.jobject (some m2)).Json
      ∧ List.Sorted keyLe (sortEntries (jsonEntries m1))
      ∧ (JVal.jobject (some m1)).Json
          = '\x7b' :: ' ' :: joinComma ((sortEntries (jsonEntries m1)).map renderEntry)
            ++ [' ', '\x7d'] := by
  intro m1 m2 hp hn
  have hperm : (jsonEntries m1).Perm (jsonEntries m2) := by
    rw [jsonEntries_eq_map, jsonEntries_eq_map]
    exact hp.map _
  have hkeys : ((jsonEntries m1).map Prod.fst).Nodup := by
    rw [jsonEntries_eq_map, List.map_map]
    exact hn
  refine ⟨?_, sorted_sortEntries _, by simp [JVal.Json]⟩
  simp only [JVal.Json]
  rw [sortEntries_eq_of_perm hperm hkeys]

/-- Witness for C5 at two storage orders of the same two-entry map. -/
theorem C5_object_json_sorted_deterministic_witness :
    (JVal.jobject (some [(strL "b", .jint (some 2)), (strL "a", .jnil)])).Json
      = (JVal.jobject (some [(strL "a", .jnil), (strL "b", .jint (some 2))])).Json
    ∧ List.Sorted keyLe
        (sortEntries (jsonEntries [(strL "b", .jint (some 2)), (strL "a", .jnil)])) :=
  ⟨(C5_object_json_sorted_deterministic
      [(strL "b", .jint (some 2)), (strL "a", .jnil)]
      [(strL "a", .jnil), (strL "b", .jint (some 2))]
      (List.Perm.swap _ _ _) (by decide)).1,
   (C5_object_json_sorted_deterministic
      [(strL "b", .jint (some 2)), (strL "a", .jnil)]
      [(strL "a", .jnil), (strL "b", .jint (some 2))]
      (List.Perm.swap _ _ _) (by decide)).2.1⟩

mutual

/-- Well-formedness used by the equality laws: every object level of the
value has pairwise-distinct keys (guaranteed for real Go values, since maps
cannot hold duplicate keys). -/
def wfKeys : JVal → Bool
  | .jarray (some l) => wfKeysList l
  | .jobject (some m) => decide ((m.map Prod.fst).Nodup) && wfKeysEntries m
  | _ => true

/-- `wfKeys` over array elements. -/
def wfKeysList : List JVal → Bool
  | [] => true
  | v :: vs => wfKeys v && wfKeysList vs

/-- `wfKeys` over object entries. -/
def wfKeysEntries : List (Str × JVal) → Bool
  | [] => true
  | e :: rest => wfKeys e.2 && wfKeysEntries rest

end

/-- In an association list with pairwise-distinct keys, `lookup` finds each
member at its own key. -/
theorem lookup_self {m : List (Str × JVal)} (hn : (m.map Prod.fst).Nodup) :
    ∀ {k : Str} {v : JVal}, (k, v) ∈ m → List.lookup k m = some v := by
  induction m with
  | nil => intro k v h; simp at h
  | cons e rest ih =>
    intro k v h
    simp only [List.map_cons, List.nodup_cons] at hn
    rcases List.mem_cons.mp h with h1 | h1
    · cases h1
      simp [List.lookup]
    · have hk : k ≠ e.1 := by
        intro hk
        exact hn.1 (hk ▸ List.mem_map_of_mem Prod.fst h1)
      have hbe : (k == e.1) = false := beq_eq_false_iff_ne.mpr hk
      rw [List.lookup, hbe]
      exact ih hn.2 h1

/-- The array-equality loop accepts a list against itself as soon as every
element is null or self-equal. -/
theorem arrEqLoop_refl :
    ∀ l : List JVal, (∀ e ∈ l, e.IsNull = true ∨ e.Equal e = some true) →
      arrEqLoop l l = some true := by
  intro l
  induction l with
  | nil => intro _; simp [arrEqLoop]
  | cons v vs ih =>
    intro h
    rw [arrEqLoop]
    rcases h v (by simp) with hv | hv
    · rw [if_pos (by simp [hv])]
      exact ih fun e he => h e (by simp [he])
    · by_cases hnull : v.IsNull = true
      · rw [if_pos (by simp [hnull])]
        exact ih fun e he => h e (by simp [he])
      · have hjnil : isJnil v = false := by
          cases v <;> first | rfl | exact (hnull (by simp [JVal.IsNull])).elim
        rw [if_neg (by simp [hnull]), if_neg (by simp [hjnil]), if_neg (by simp [hjnil]), hv]
        exact ih fun e he => h e (by simp [he])

/-- The `cmpMap` walk accepts `m'` against `m` whenever each entry of `m'`
is found unchanged in `m` and is null or self-equal. -/
theorem cmpMapLoop_self :
    ∀ m' m : List (Str × JVal),
      (∀ e ∈ m', List.lookup e.1 m = some e.2) →
      (∀ e ∈ m', (e.2 : JVal).IsNull = true ∨ e.2.Equal e.2 = some true) →
      cmpMapLoop m' m = some true := by
  intro m'
  induction m' with
  | nil => intro m _ _; simp [cmpMapLoop]
  | cons e rest ih =>
    intro m hlook hself
    obtain ⟨k, v⟩ := e
    rw [cmpMapLoop]
    split
    case _ heq =>
      rw [hlook (k, v) (by simp)] at heq
      cases heq
    case _ o heq =>
      have ho : v = o := by
        have h2 := (hlook (k, v) (by simp)).symm.trans heq
        exact Option.some.inj h2
      subst ho
      rcases hself (k, v) (by simp) with hv | hv
      · rw [if_pos (by simp [hv])]
        exact ih m (fun e he => hlook e (by simp [he])) (fun e he => hself e (by simp [he]))
      · by_cases hnull : (v : JVal).IsNull = true
        · rw [if_pos (by simp [hnull])]
          exact ih m (fun e he => hlook e (by simp [he])) (fun e he => hself e (by simp [he]))
        · have hjnil : isJnil v = false := by
            cases v <;> first | rfl | exact (hnull (by simp [JVal.IsNull])).elim
          rw [if_neg (by simp [hnull]), if_neg (by simp [hjnil]), hv]
          exact ih m (fun e he => hlook e (by simp [he])) (fun e he => hself e (by simp [he]))

theorem ne_jnil_of_not_null {v : JVal} (h : v.IsNull = false) : v ≠ .jnil := by
  intro he
  subst he
  simp [JVal.IsNull] at h

theorem wfKeysList_mem {l : List JVal} (h : wfKeysList l = true) :
    ∀ e ∈ l, wfKeys e = true := by
  induction l with
  | nil => intro e he; simp at he
  | cons v vs ih =>
    rw [wfKeysList] at h
    simp only [Bool.and_eq_true] at h
    intro e he
    rcases List.mem_cons.mp he with h1 | h1
    · exact h1 ▸ h.1
    · exact ih h.2 e h1

theorem wfKeysEntries_mem {m : List (Str × JVal)} (h : wfKeysEntries m = true) :
    ∀ e ∈ m, wfKeys e.2 = true := by
  induction m with
  | nil => intro e he; simp at he
  | cons v vs ih =>
    rw [wfKeysEntries] at h
    simp only [Bool.and_eq_true] at h
    intro e he
    rcases List.mem_cons.mp he with h1 | h1
    · exact h1 ▸ h.1
    · exact ih h.2 e h1

/-- `Equal` is reflexive on non-nil values whose objects have distinct keys
(bounded-size auxiliary for the structural induction). -/
theorem equal_refl_aux :
    ∀ (n : Nat) (v : JVal), sizeOf v ≤ n → wfKeys v = true → v ≠ .jnil →
      v.Equal v = some true := by
  intro n
  induction n with
  | zero => intro v hs; cases v <;> simp at hs
  | succ n ih =>
    intro v hs hwf hnil
    cases v with
    | jnil => exact absurd rfl hnil
    | jint p => cases p <;> simp [JVal.Equal]
    | jfloat p => cases p <;> simp [JVal.Equal]
    | jbool p => cases p <;> simp [JVal.Equal]
    | jstring p => by_cases h : strNullB p = true <;> simp [JVal.Equal, h]
    | jarray p =>
      cases p with
      | none => simp [JVal.Equal]
      | some l =>
        rw [wfKeys] at hwf
        simp only [JVal.Equal, ne_eq, not_true_eq_false, Bool.false_eq_true, if_false,
          eq_self_iff_true, not_true, if_neg]
        apply arrEqLoop_refl
        intro e he
        by_cases hn : e.IsNull = true
        · exact Or.inl hn
        · refine Or.inr (ih e ?_ (wfKeysList_mem hwf e he) (ne_jnil_of_not_null (by simpa using hn)))
          have h1 := List.sizeOf_lt_of_mem he
          simp at hs
          omega
    | jobject p =>
      cases p with
      | none => simp [JVal.Equal]
      | some m =>
        rw [wfKeys] at hwf
        simp only [Bool.and_eq_true, decide_eq_true_eq] at hwf
        have hcm : cmpMap m m = some true := by
          rw [cmpMap]
          simp only [ne_eq, not_true_eq_false, Bool.false_eq_true, if_false]
          apply cmpMapLoop_self
          · intro e he
            exact lookup_self hwf.1 (by simpa using he)
          · intro e he
            by_cases hn : (e.2 : JVal).IsNull = true
            · exact Or.inl hn
            · refine Or.inr (ih e.2 ?_ (wfKeysEntries_mem hwf.2 e he)
                (ne_jnil_of_not_null (by simpa using hn)))
              have h1 := List.sizeOf_lt_of_mem he
              have h2 : sizeOf e.2 < sizeOf e := by
                obtain ⟨a, b⟩ := e; simp
              simp at hs
              omega
        simp [JVal.Equal, hcm]

/-- `Equal` is reflexive on well-formed non-nil values. -/
theorem equal_refl (v : JVal) (hwf : wfKeys v = true) (hnil : v ≠ .jnil) :
    v.Equal v = some true :=
  equal_refl_aux (sizeOf v) v le_rfl hwf hnil

/-- The array-equality loop is symmetric in its `some true` outcome, given
symmetry of `Equal` on the non-nil elements it actually compares. -/
theorem arrEqLoop_symm :
    ∀ l1 l2 : List JVal, l1.length = l2.length →
      (∀ x ∈ l1, ∀ y ∈ l2, isJnil x = false → isJnil y = false →
        x.Equal y = some true → y.Equal x = some true) →
      arrEqLoop l1 l2 = some true → arrEqLoop l2 l1 = some true := by
  intro l1
  induction l1 with
  | nil =>
    intro l2 hlen _ _
    cases l2 with
    | nil => simp [arrEqLoop]
    | cons o os => simp at hlen
  | cons v vs ih =>
    intro l2 hlen hpt h
    cases l2 with
    | nil => simp at hlen
    | cons o os =>
      rw [arrEqLoop] at h
      rw [arrEqLoop]
      by_cases hg : (v.IsNull && o.IsNull) = true
      · rw [if_pos hg] at h
        rw [if_pos (by rwa [Bool.and_comm] at hg)]
        exact ih os (by simpa using hlen)
          (fun x hx y hy => hpt x (by simp [hx]) y (by simp [hy])) h
      · rw [if_neg hg] at h
        by_cases hv : isJnil v = true
        · rw [if_pos hv] at h; simp at h
        · rw [if_neg (by simp [hv])] at h
          by_cases ho : isJnil o = true
          · rw [if_pos ho] at h; simp at h
          · rw [if_neg (by simp [ho])] at h
            rw [if_neg (by rw [Bool.and_comm]; exact hg),
                if_neg (by simp [ho]), if_neg (by simp [hv])]
            cases hvo : v.Equal o with
            | none => rw [hvo] at h; simp at h
            | some b =>
              cases b with
              | false => rw [hvo] at h; simp at h
              | true =>
                rw [hvo] at h
                rw [hpt v (by simp) o (by simp)
                  (by simpa using hv) (by simpa using ho) hvo]
                exact ih os (by simpa using hlen)
                  (fun x hx y hy => hpt x (by simp [hx]) y (by simp [hy])) h

/-- `Equal` is symmetric in its `true` outcome on non-nil values
(bounded-size auxiliary). -/
theorem equal_symm_true_aux :
    ∀ (n : Nat) (a b : JVal), sizeOf a + sizeOf b ≤ n → a ≠ .jnil → b ≠ .jnil →
      a.Equal b = some true → b.Equal a = some true := by
  intro n
  induction n with
  | zero => intro a b hs; cases a <;> cases b <;> simp at hs
  | succ n ih =>
    intro a b hs hna hnb h
    cases a with
    | jnil => exact absurd rfl hna
    | jint p =>
      cases b with
      | jnil => exact absurd rfl hnb
      | jint q => cases p <;> cases q <;> simp_all [JVal.Equal, eq_comm]
      | jfloat q => simp_all [JVal.Equal]
      | jbool q => simp_all [JVal.Equal]
      | jstring q => simp_all [JVal.Equal]
      | jarray q => simp_all [JVal.Equal]
      | jobject q => simp_all [JVal.Equal]
    | jfloat p =>
      cases b with
      | jnil => exact absurd rfl hnb
      | jfloat q => cases p <;> cases q <;> simp_all [JVal.Equal, eq_comm]
      | jint q => simp_all [JVal.Equal]
      | jbool q => simp_all [JVal.Equal]
      | jstring q => simp_all [JVal.Equal]
      | jarray q => simp_all [JVal.Equal]
      | jobject q => simp_all [JVal.Equal]
    | jbool p =>
      cases b with
      | jnil => exact absurd rfl hnb
      | jbool q => cases p <;> cases q <;> simp_all [JVal.Equal, eq_comm]
      | jint q => simp_all [JVal.Equal]
      | jfloat q => simp_all [JVal.Equal]
      | jstring q => simp_all [JVal.Equal]
      | jarray q => simp_all [JVal.Equal]
      | jobject q => simp_all [JVal.Equal]
    | jstring p =>
      cases b with
      | jnil => exact absurd rfl hnb
      | jstring q =>
        by_cases hq : strNullB q = true
        · by_cases hp : strNullB p = true
          · simp [JVal.Equal, hp, hq]
          · simp only [JVal.Equal, if_pos hq] at h
            simp at h
            exact absurd h hp
        · by_cases hp : strNullB p = true
          · simp only [JVal.Equal, if_neg hq] at h
            simp [hp] at h
          · simp only [JVal.Equal, if_neg hq] at h
            simp only [JVal.Equal, if_neg hp]
            simp [hp, hq] at h ⊢
            exact h.symm
      | jint q => simp_all [JVal.Equal]
      | jfloat q => simp_all [JVal.Equal]
      | jbool q => simp_all [JVal.Equal]
      | jarray q => simp_all [JVal.Equal]
      | jobject q => simp_all [JVal.Equal]
    | jarray p =>
      cases b with
      | jnil => exact absurd rfl hnb
      | jarray q =>
        cases p with
        | none => cases q <;> simp_all [JVal.Equal]
        | some l1 =>
          cases q with
          | none => simp_all [JVal.Equal]
          | some l2 =>
            simp only [JVal.Equal] at h ⊢
            by_cases hlen : l1.length = l2.length
            · rw [if_neg (by simp [hlen])] at h
              rw [if_neg (by simp [hlen])]
              apply arrEqLoop_symm l1 l2 hlen ?_ h
              intro x hx y hy hjx hjy hxy
              have h1 := List.sizeOf_lt_of_mem hx
              have h2 := List.sizeOf_lt_of_mem hy
              simp at hs
              refine ih x y (by omega) ?_ ?_ hxy
              · intro he; subst he; simp [isJnil] at hjx
              · intro he; subst he; simp [isJnil] at hjy
            · rw [if_pos (by simp [hlen])] at h
              simp at h
      | jint q => simp_all [JVal.Equal]
      | jfloat q => simp_all [JVal.Equal]
      | jbool q => simp_all [JVal.Equal]
      | jstring q => simp_all [JVal.Equal]
      | jobject q => simp_all [JVal.Equal]
    | jobject p =>
      cases b with
      | jnil => exact absurd rfl hnb
      | jobject q =>
        cases p with
        | none => cases q <;> simp_all [JVal.Equal]
        | some m1 =>
          cases q with
          | none => simp_all [JVal.Equal]
          | some m2 =>
            simp only [JVal.Equal] at h ⊢
            cases hc1 : cmpMap m1 m2 with
            | none => rw [hc1] at h; simp at h
            | some b1 =>
              cases b1 with
              | false => rw [hc1] at h; simp at h
              | true =>
                have h2 : cmpMap m2 m1 = some true := by
                  rw [hc1] at h; exact h
                rw [h2]
      | jint q => simp_all [JVal.Equal]
      | jfloat q => simp_all [JVal.Equal]
      | jbool q => simp_all [JVal.Equal]
      | jstring q => simp_all [JVal.Equal]
      | jarray q => simp_all [JVal.Equal]

/-- `Equal` is symmetric in its `true` outcome on non-nil values. -/
theorem equal_symm_true {a b : JVal} (hna : a ≠ .jnil) (hnb : b ≠ .jnil)
    (h : a.Equal b = some true) : b.Equal a = some true :=
  equal_symm_true_aux (sizeOf a + sizeOf b) a b le_rfl hna hnb h

theorem equal_cross_kind :
    ∀ a b : JVal, a ≠ .jnil → b ≠ .jnil → a.kind ≠ b.kind →
      a.Equal b = some false := by
  intro a b hna hnb hk
  cases a <;> cases b <;>
    first
    | exact absurd rfl hna
    | exact absurd rfl hnb
    | exact absurd rfl hk
    | simp [JVal.Equal]

theorem null_laws_int (p q : Option Int) :
    ((JVal.jint p).IsNull = true → (JVal.jint q).IsNull = true →
      (JVal.jint p).Equal (.jint q) = some true)
    ∧ ((JVal.jint p).IsNull = true → (JVal.jint q).IsNull = false →
      (JVal.jint p).Equal (.jint q) = some false
      ∧ (JVal.jint q).Equal (.jint p) = some false) := by
  constructor
  · intro h1 h2; cases p <;> cases q <;> simp_all [JVal.IsNull, JVal.Equal]
  · intro h1 h2; cases p <;> cases q <;> simp_all [JVal.IsNull, JVal.Equal]

theorem null_laws_float (p q : Option Rat) :
    ((JVal.jfloat p).IsNull = true → (JVal.jfloat q).IsNull = true →
      (JVal.jfloat p).Equal (.jfloat q) = some true)
    ∧ ((JVal.jfloat p).IsNull = true → (JVal.jfloat q).IsNull = false →
      (JVal.jfloat p).Equal (.jfloat q) = some false
      ∧ (JVal.jfloat q).Equal (.jfloat p) = some false) := by
  constructor
  · intro h1 h2; cases p <;> cases q <;> simp_all [JVal.IsNull, JVal.Equal]
  · intro h1 h2; cases p <;> cases q <;> simp_all [JVal.IsNull, JVal.Equal]

theorem null_laws_bool (p q : Option Bool) :
    ((JVal.jbool p).IsNull = true → (JVal.jbool q).IsNull = true →
      (JVal.jbool p).Equal (.jbool q) = some true)
    ∧ ((JVal.jbool p).IsNull = true → (JVal.jbool q).IsNull = false →
      (JVal.jbool p).Equal (.jbool q) = some false
      ∧ (JVal.jbool q).Equal (.jbool p) = some false) := by
  constructor
  · intro h1 h2; cases p <;> cases q <;> simp_all [JVal.IsNull, JVal.Equal]
  · intro h1 h2; cases p <;> cases q <;> simp_all [JVal.IsNull, JVal.Equal]

theorem null_laws_string (p q : Option Str) :
    ((JVal.jstring p).IsNull = true → (JVal.jstring q).IsNull = true →
      (JVal.jstring p).Equal (.jstring q) = some true)
    ∧ ((JVal.jstring p).IsNull = true → (JVal.jstring q).IsNull = false →
      (JVal.jstring p).Equal (.jstring q) = some false
      ∧ (JVal.jstring q).Equal (.jstring p) = some false) := by
  constructor
  · intro h1 h2
    simp only [JVal.IsNull] at h1 h2
    simp [JVal.Equal, h1, h2]
  · intro h1 h2
    simp only [JVal.IsNull] at h1 h2
    constructor <;> simp [JVal.Equal, h1, h2]

theorem null_laws_array (p q : Option (List JVal)) :
    ((JVal.jarray p).IsNull = true → (JVal.jarray q).IsNull = true →
      (JVal.jarray p).Equal (.jarray q) = some true)
    ∧ ((JVal.jarray p).IsNull = true → (JVal.jarray q).IsNull = false →
      (JVal.jarray p).Equal (.jarray q) = some false
      ∧ (JVal.jarray q).Equal (.jarray p) = some false) := by
  constructor
  · intro h1 h2; cases p <;> cases q <;> simp_all [JVal.IsNull, JVal.Equal]
  · intro h1 h2; cases p <;> cases q <;> simp_all [JVal.IsNull, JVal.Equal]

theorem null_laws_object (p q : Option (List (Str × JVal))) :
    ((JVal.jobject p).IsNull = true → (JVal.jobject q).IsNull = true →
      (JVal.jobject p).Equal (.jobject q) = some true)
    ∧ ((JVal.jobject p).IsNull = true → (JVal.jobject q).IsNull = false →
      (JVal.jobject p).Equal (.jobject q) = some false
      ∧ (JVal.jobject q).Equal (.jobject p) = some false) := by
  constructor
  · intro h1 h2; cases p <;> cases q <;> simp_all [JVal.IsNull, JVal.Equal]
  · intro h1 h2; cases p <;> cases q <;> simp_all [JVal.IsNull, JVal.Equal]

theorem equal_null_laws :
    ∀ a b : JVal, a ≠ .jnil → b ≠ .jnil → a.kind = b.kind →
      (a.IsNull = true → b.IsNull = true → a.Equal b = some true)
      ∧ (a.IsNull = true → b.IsNull = false →
          a.Equal b = some false ∧ b.Equal a = some false) := by
  intro a b hna hnb hk
  cases a with
  | jnil => exact absurd rfl hna
  | jint p =>
    cases b
    case jint q => exact null_laws_int p q
    case jnil => exact absurd rfl hnb
    all_goals exact absurd hk (by simp [JVal.kind])
  | jfloat p =>
    cases b
    case jfloat q => exact null_laws_float p q
    case jnil => exact absurd rfl hnb
    all_goals exact absurd hk (by simp [JVal.kind])
  | jbool p =>
    cases b
    case jbool q => exact null_laws_bool p q
    case jnil => exact absurd rfl hnb
    all_goals exact absurd hk (by simp [JVal.kind])
  | jstring p =>
    cases b
    case jstring q => exact null_laws_string p q
    case jnil => exact absurd rfl hnb
    all_goals exact absurd hk (by simp [JVal.kind])
  | jarray p =>
    cases b
    case jarray q => exact null_laws_array p q
    case jnil => exact absurd rfl hnb
    all_goals exact absurd hk (by simp [JVal.kind])
  | jobject p =>
    cases b
    case jobject q => exact null_laws_object p q
    case jnil => exact absurd rfl hnb
    all_goals exact absurd hk (by simp [JVal.kind])

/-- C8: on well-formed values, `Equal` is reflexive (non-nil, objects with
distinct keys), symmetric in its `true` outcome, always false across
different variants, true between two null-state values of one variant, and
false (in both directions) between a null-state and a non-null-state value
of one variant. -/
theorem C8_equal_reflexive_symmetric_null_laws :
    (∀ v : JVal, wfKeys v = true → v ≠ .jnil → v.Equal v = some true)
    ∧ (∀ a b : JVal, a ≠ .jnil → b ≠ .jnil →
        a.Equal b = some true → b.Equal a = some true)
    ∧ (∀ a b : JVal, a ≠ .jnil → b ≠ .jnil → a.kind ≠ b.kind →
        a.Equal b = some false)
    ∧ (∀ a b : JVal, a ≠ .jnil → b ≠ .jnil → a.kind = b.kind →
        (a.IsNull = true → b.IsNull = true → a.Equal b = some true)
        ∧ (a.IsNull = true → b.IsNull = false →
            a.Equal b = some false ∧ b.Equal a = some false)) :=
  ⟨equal_refl, fun _ _ hna hnb h => equal_symm_true hna hnb h,
   equal_cross_kind, equal_null_laws⟩

/-- Witness for C8 at concrete values of each clause. -/
theorem C8_equal_reflexive_symmetric_null_laws_witness :
    (JVal.jobject (some [(strL "a", .jint (some 1))])).Equal
      (.jobject (some [(strL "a", .jint (some 1))])) = some true
    ∧ (JVal.jstring none).Equal (.jstring (some [])) = some true
    ∧ (JVal.jint none).Equal (.jbool none) = some false
    ∧ (JVal.jint none).Equal (.jint (some 3)) = some false :=
  ⟨C8_equal_reflexive_symmetric_null_laws.1 _
      (by simp [wfKeys, wfKeysEntries]) (by simp),
   C8_equal_reflexive_symmetric_null_laws.2.1 _ _ (by simp) (by simp)
      (by simp [JVal.Equal, strNullB]),
   C8_equal_reflexive_symmetric_null_laws.2.2.1 _ _ (by simp) (by simp)
      (by simp [JVal.kind]),
   ((C8_equal_reflexive_symmetric_null_laws.2.2.2 _ _ (by simp) (by simp)
      (by simp [JVal.kind])).2 (by simp [JVal.IsNull]) (by simp [JVal.IsNull])).1⟩

theorem trimLeft_cons_of_not_space {c : Char} {l : Str} (h : goIsSpace c = false) :
    trimLeft (c :: l) = c :: l := by
  simp [trimLeft, List.dropWhile_cons, h]

theorem trimLeft_cons_of_space {c : Char} {l : Str} (h : goIsSpace c = true) :
    trimLeft (c :: l) = trimLeft l := by
  simp [trimLeft, List.dropWhile_cons, h]

theorem trimSpace_cons_space {c : Char} {l : Str} (h : goIsSpace c = true) :
    trimSpace (c :: l) = trimSpace l := by
  simp [trimSpace, trimLeft_cons_of_space h]

theorem head?_append_left {a b : Str} (h : a ≠ []) : (a ++ b).head? = a.head? := by
  cases a with
  | nil => exact absurd rfl h
  | cons c cs => rfl

theorem getLast?_append_right {a b : Str} (h : b ≠ []) :
    (a ++ b).getLast? = b.getLast? := by
  rw [List.getLast?_append_of_ne_nil]
  exact h

theorem trimRight_eq_self {l : Str}
    (h : ∀ c, l.getLast? = some c → goIsSpace c = false) : trimRight l = l := by
  unfold trimRight
  cases hr : l.reverse with
  | nil => simp [List.reverse_eq_nil_iff.mp hr]
  | cons c cs =>
    have hc : l.getLast? = some c := by
      rw [← List.head?_reverse, hr]; rfl
    rw [List.dropWhile_cons, h c hc]
    simp only [Bool.false_eq_true, if_false]
    rw [← hr, List.reverse_reverse]

theorem trimSpace_eq_self {l : Str}
    (h1 : ∀ c, l.head? = some c → goIsSpace c = false)
    (h2 : ∀ c, l.getLast? = some c → goIsSpace c = false) : trimSpace l = l := by
  unfold trimSpace
  have hl : trimLeft l = l := by
    cases l with
    | nil => rfl
    | cons c cs => exact trimLeft_cons_of_not_space (h1 c rfl)
  rw [hl, trimRight_eq_self h2]

/-- `trimRight` returns a prefix of its input. -/
theorem trimRight_prefix (l : Str) : (trimRight l).IsPrefix l := by
  unfold trimRight
  have h : (l.reverse.dropWhile goIsSpace) <:+ l.reverse := List.dropWhile_suffix goIsSpace
  have := List.reverse_prefix.mpr h
  simpa using this

theorem head?_trimRight {l : Str} (h : trimRight l ≠ []) :
    (trimRight l).head? = l.head? := by
  obtain ⟨t, ht⟩ := trimRight_prefix l
  conv_rhs => rw [← ht]
  rw [head?_append_left h]

theorem head?_trimLeft_not_space {l : Str} {c : Char}
    (h : (trimLeft l).head? = some c) : goIsSpace c = false := by
  have := List.head?_dropWhile_not goIsSpace l
  unfold trimLeft at h
  rw [h] at this
  simpa using this

theorem getLast?_trimRight_not_space {l : Str} {c : Char}
    (h : (trimRight l).getLast? = some c) : goIsSpace c = false := by
  unfold trimRight at h
  rw [← List.head?_reverse, List.reverse_reverse] at h
  have := List.head?_dropWhile_not goIsSpace l.reverse
  rw [h] at this
  simpa using this

theorem trimSpace_idem (l : Str) : trimSpace (trimSpace l) = trimSpace l := by
  apply trimSpace_eq_self
  · intro c hc
    unfold trimSpace at hc
    by_cases hn : trimRight (trimLeft l) = []
    · rw [hn] at hc; cases hc
    · rw [head?_trimRight hn] at hc
      exact head?_trimLeft_not_space hc
  · intro c hc
    exact getLast?_trimRight_not_space hc

theorem digitVal_digitChar {d : Nat} (h : d < 10) :
    digitVal (Nat.digitChar d) = d := by
  interval_cases d <;> decide

theorem isDigit_digitChar {d : Nat} (h : d < 10) : isDigit (Nat.digitChar d) = true := by
  interval_cases d <;> decide

theorem natReprAux_all_digits (b : Nat) (hb : b = 10) :
    ∀ fuel n, (natReprAux b fuel n).all isDigit = true := by
  subst hb
  intro fuel
  induction fuel with
  | zero => intro n; rfl
  | succ fuel ih =>
    intro n
    rw [natReprAux]
    split
    · rfl
    · simp only [List.all_append, Bool.and_eq_true]
      exact ⟨ih _, by simp [isDigit_digitChar (Nat.mod_lt n (by omega))]⟩

theorem natRepr_all_digits (n : Nat) : (natRepr n).all isDigit = true := by
  unfold natRepr
  split
  · rfl
  · exact natReprAux_all_digits 10 rfl _ n

theorem natRepr_ne_nil (n : Nat) : natRepr n ≠ [] := by
  unfold natRepr
  split
  · simp
  · rw [natReprAux]
    split
    · omega
    · simp

theorem foldl_digits_append (acc : Nat) (xs : Str) (d : Char) :
    List.foldl (fun a c => 10 * a + digitVal c) acc (xs ++ [d])
      = 10 * List.foldl (fun a c => 10 * a + digitVal c) acc xs + digitVal d := by
  rw [List.foldl_append]
  rfl

theorem natReprAux_val :
    ∀ fuel n acc, n < fuel →
      List.foldl (fun a c => 10 * a + digitVal c) acc (natReprAux 10 fuel n)
        = acc * 10 ^ (natReprAux 10 fuel n).length + n := by
  intro fuel
  induction fuel with
  | zero => intro n acc h; omega
  | succ fuel ih =>
    intro n acc h
    rw [natReprAux]
    by_cases hn : n = 0
    · simp [hn]
    · rw [if_neg hn, foldl_digits_append,
        ih (n / 10) acc (by omega),
        digitVal_digitChar (Nat.mod_lt n (by omega))]
      simp only [List.length_append, List.length_cons, List.length_nil]
      rw [pow_succ]
      have : 10 * (n / 10) + n % 10 = n := Nat.div_add_mod n 10
      ring_nf
      omega

theorem digitsVal_natRepr (n : Nat) : digitsVal (natRepr n) = n := by
  unfold digitsVal natRepr
  split
  · subst n; rfl
  · rw [natReprAux_val (n + 1) n 0 (by omega)]
    simp

theorem splitSign_of_digits {ds : Str} (hd : ds.all isDigit = true) :
    splitSign ds = (false, ds) := by
  cases ds with
  | nil => rfl
  | cons c cs =>
    have hc : isDigit c = true := by
      simp only [List.all_cons, Bool.and_eq_true] at hd
      exact hd.1
    have h1 : c ≠ '+' := by intro he; subst he; simp [isDigit] at hc
    have h2 : c ≠ '-' := by intro he; subst he; simp [isDigit] at hc
    simp [splitSign, h1, h2]

/-- `strconv.ParseInt` inverts `%d` on every value in the signed 64-bit
range. -/
theorem goParseInt64_intRepr {n : Int} (h1 : -(2 ^ 63) ≤ n) (h2 : n < 2 ^ 63) :
    goParseInt64 (intRepr n) = some n := by
  unfold goParseInt64 intRepr
  by_cases hn : n < 0
  · rw [if_pos hn]
    have hsplit : splitSign ('-' :: natRepr n.natAbs) = (true, natRepr n.natAbs) := by
      simp [splitSign]
    rw [hsplit]
    simp only
    rw [if_neg (natRepr_ne_nil _), if_pos (natRepr_all_digits _), if_pos trivial]
    rw [digitsVal_natRepr]
    have hna : (n.natAbs : Int) = -n := Int.ofNat_natAbs_of_nonpos (le_of_lt hn)
    rw [if_pos (by omega)]
    congr 1
    omega
  · rw [if_neg hn]
    rw [splitSign_of_digits (natRepr_all_digits n.natAbs)]
    simp only
    rw [if_neg (natRepr_ne_nil _), if_pos (natRepr_all_digits _)]
    rw [if_neg (by simp), digitsVal_natRepr]
    have hna : (n.natAbs : Int) = n := Int.natAbs_of_nonneg (by omega)
    rw [if_pos (by omega)]
    congr 1

theorem takeWhile_append_all {p : Char → Bool} {l r : Str} (h : l.all p = true)
    (hr : ∀ c, r.head? = some c → p c = false) :
    (l ++ r).takeWhile p = l := by
  induction l with
  | nil =>
    cases r with
    | nil => rfl
    | cons c cs => simp [List.takeWhile_cons, hr c rfl]
  | cons c cs ih =>
    simp only [List.all_cons, Bool.and_eq_true] at h
    simp [List.takeWhile_cons, h.1, ih h.2]

theorem dropWhile_append_all {p : Char → Bool} {l r : Str} (h : l.all p = true)
    (hr : ∀ c, r.head? = some c → p c = false) :
    (l ++ r).dropWhile p = r := by
  induction l with
  | nil =>
    cases r with
    | nil => rfl
    | cons c cs => simp [List.dropWhile_cons, hr c rfl]
  | cons c cs ih =>
    simp only [List.all_cons, Bool.and_eq_true] at h
    simp [List.dropWhile_cons, h.1, ih h.2]

theorem intRepr_ne_nil (n : Int) : intRepr n ≠ [] := by
  unfold intRepr
  split
  · simp
  · exact natRepr_ne_nil _

theorem intRepr_chars (n : Int) : ∀ c ∈ intRepr n, isDigit c = true ∨ c = '-' := by
  unfold intRepr
  split
  · intro c hc
    rcases List.mem_cons.mp hc with h | h
    · exact Or.inr h
    · exact Or.inl (by
        have := natRepr_all_digits n.natAbs
        rw [List.all_eq_true] at this
        exact this c h)
  · intro c hc
    exact Or.inl (by
      have := natRepr_all_digits n.natAbs
      rw [List.all_eq_true] at this
      exact this c hc)

theorem not_space_of_intRepr_char {n : Int} {c : Char} (h : c ∈ intRepr n) :
    goIsSpace c = false := by
  rcases intRepr_chars n c h with h1 | h1
  · simp [isDigit] at h1
    revert h1
    unfold goIsSpace
    intro h1
    simp only [Bool.or_eq_false_iff, decide_eq_false_iff_not]
    constructor
    · constructor
      · constructor
        · constructor
          · constructor
            · constructor
              · constructor <;> (intro he; subst he; simp at h1)
              · intro he; subst he; simp at h1
            · intro he; subst he; simp at h1
          · intro he; subst he; simp at h1
        · intro he; subst he; simp at h1
      · intro he; subst he; simp at h1
    · intro he; subst he; simp at h1
  · subst h1; rfl

/-- The tails that can follow a serialized value during re-parsing: nothing,
or an element/entry separator or closing context whose last character is a
closing bracket (so trailing-trim never reaches across it). -/
def GoodRest (rest : Str) : Prop :=
  rest = [] ∨ ((rest.head? = some ',' ∨ rest.head? = some ' ')
    ∧ (rest.getLast? = some ']' ∨ rest.getLast? = some '\x7d'))

theorem goodRest_getLast_not_space {rest : Str} (h : GoodRest rest) :
    ∀ c, rest.getLast? = some c → goIsSpace c = false := by
  intro c hc
  rcases h with h | ⟨_, h2 | h2⟩
  · subst h; cases hc
  · rw [hc] at h2; cases h2; rfl
  · rw [hc] at h2; cases h2; rfl

theorem goodRest_head_not_digit {rest : Str} (h : GoodRest rest) :
    ∀ c, rest.head? = some c → isDigit c = false := by
  intro c hc
  rcases h with h | ⟨h1 | h1, _⟩
  · subst h; cases hc
  · rw [hc] at h1; cases h1; rfl
  · rw [hc] at h1; cases h1; rfl

theorem goodRest_head_ne_dot {rest : Str} (h : GoodRest rest) :
    rest.head? ≠ some '.' := by
  intro hc
  rcases h with h | ⟨h1 | h1, _⟩
  · subst h; cases hc
  · rw [hc] at h1; cases h1
  · rw [hc] at h1; cases h1

theorem trimSpace_json_append {x rest : Str} (hx : x ≠ [])
    (hhead : ∀ c, x.head? = some c → goIsSpace c = false)
    (hlast : ∀ c, x.getLast? = some c → goIsSpace c = false)
    (h : GoodRest rest) : trimSpace (x ++ rest) = x ++ rest := by
  apply trimSpace_eq_self
  · intro c hc
    rw [head?_append_left hx] at hc
    exact hhead c hc
  · intro c hc
    rcases h with hr | hr
    · subst hr
      rw [List.append_nil] at hc
      exact hlast c hc
    · by_cases hrn : rest = []
      · subst hrn
        rw [List.append_nil] at hc
        exact hlast c hc
      · rw [getLast?_append_right hrn] at hc
        exact goodRest_getLast_not_space (Or.inr hr) c hc

theorem numSign_neg (r : Str) : numSign ('-' :: r) = (['-'], r) := by simp [numSign]

theorem numSign_digit {c : Char} {r : Str} (h : isDigit c = true) :
    numSign (c :: r) = ([], c :: r) := by
  have h1 : c ≠ '+' := by intro he; subst he; simp [isDigit] at h
  have h2 : c ≠ '-' := by intro he; subst he; simp [isDigit] at h
  simp [numSign, h1, h2]

/-- Re-parsing a serialized integer: `parseNumber` consumes exactly the
digits (stopping at any good rest) and hands them to `strconv.ParseInt`,
recovering the value with no error. -/
theorem parseNumber_intRepr {n : Int} (h1 : -(2 ^ 63) ≤ n) (h2 : n < 2 ^ 63)
    {rest : Str} (hrest : GoodRest rest) :
    parseNumber (intRepr n ++ rest) = ⟨.jint (some n), rest, none⟩ := by
  have htrim : trimSpace (intRepr n ++ rest) = intRepr n ++ rest :=
    trimSpace_json_append (intRepr_ne_nil n)
      (fun c hc => not_space_of_intRepr_char (List.mem_of_mem_head? hc))
      (fun c hc => not_space_of_intRepr_char (List.mem_of_mem_getLast? hc))
      hrest
  simp only [parseNumber, htrim]
  rw [if_neg (by simp [intRepr_ne_nil n])]
  have hrd := goodRest_head_not_digit hrest
  by_cases hn : n < 0
  · have hir : intRepr n = '-' :: natRepr n.natAbs := by
      unfold intRepr; rw [if_pos hn]
    rw [hir, List.cons_append, numSign_neg]
    simp only
    rw [takeWhile_append_all (natRepr_all_digits _) hrd,
        dropWhile_append_all (natRepr_all_digits _) hrd]
    rw [if_neg (goodRest_head_ne_dot hrest)]
    have : ('-' :: natRepr n.natAbs : Str) = intRepr n := hir.symm
    rw [show (['-'] ++ natRepr n.natAbs : Str) = intRepr n from hir.symm]
    rw [goParseInt64_intRepr h1 h2]
  · have hir : intRepr n = natRepr n.natAbs := by
      unfold intRepr; rw [if_neg hn]
    have hne := natRepr_ne_nil n.natAbs
    have hall := natRepr_all_digits n.natAbs
    cases hrr : natRepr n.natAbs with
    | nil => exact absurd hrr hne
    | cons c cs =>
      have hcd : isDigit c = true := by
        rw [hrr, List.all_cons, Bool.and_eq_true] at hall
        exact hall.1
      rw [hir, hrr, List.cons_append, numSign_digit hcd, ← List.cons_append, ← hrr]
      simp only
      rw [takeWhile_append_all (natRepr_all_digits _) hrd,
          dropWhile_append_all (natRepr_all_digits _) hrd]
      rw [if_neg (goodRest_head_ne_dot hrest)]
      rw [List.nil_append, ← hir, goParseInt64_intRepr h1 h2]

theorem parseBool_roundtrip (b : Bool) {rest : Str} (hrest : GoodRest rest) :
    parseBool ((if b then strL "true" else strL "false") ++ rest)
      = ⟨.jbool (some b), trimSpace rest, none⟩ := by
  cases b with
  | true =>
    show parseBool (strL "true" ++ rest) = ⟨.jbool (some true), trimSpace rest, none⟩
    have htrim : trimSpace (strL "true" ++ rest) = strL "true" ++ rest :=
      trimSpace_json_append (by decide) (by intro c hc; cases hc; rfl)
        (by intro c hc; cases hc; rfl) hrest
    unfold parseBool
    rw [htrim]
    rw [if_neg (by simp [strL])]
    rw [if_pos (by simp [strL, List.isPrefixOf])]
    have hdrop : (strL "true" ++ rest).drop 4 = rest := by simp [strL]
    rw [hdrop]
  | false =>
    show parseBool (strL "false" ++ rest) = ⟨.jbool (some false), trimSpace rest, none⟩
    have htrim : trimSpace (strL "false" ++ rest) = strL "false" ++ rest :=
      trimSpace_json_append (by decide) (by intro c hc; cases hc; rfl)
        (by intro c hc; cases hc; rfl) hrest
    unfold parseBool
    rw [htrim]
    rw [if_neg (by simp [strL])]
    rw [if_neg (by simp [strL, List.isPrefixOf])]
    rw [if_pos (by simp [strL, List.isPrefixOf])]
    have hdrop : (strL "false" ++ rest).drop 5 = rest := by simp [strL]
    rw [hdrop]

theorem parseNull_roundtrip {rest : Str} (hrest : GoodRest rest) :
    parseNull (strL "null" ++ rest) = ⟨.jnil, trimSpace rest, none⟩ := by
  have htrim : trimSpace (strL "null" ++ rest) = strL "null" ++ rest :=
    trimSpace_json_append (by decide) (by intro c hc; cases hc; rfl)
      (by intro c hc; cases hc; rfl) hrest
  unfold parseNull
  rw [htrim]
  rw [if_neg (by simp [strL])]
  rw [if_pos (by simp [strL, List.isPrefixOf])]
  have hdrop : (strL "null" ++ rest).drop 4 = rest := by simp [strL]
  rw [hdrop]

/-- The characters whose `%q` escaping the `getString` scanner decodes back
verbatim, kept inside the region where `goIsPrint` is exact: the Latin-1
printables (quote and backslash included: their escapes decode via the
relaxed default arm) and the five control characters with dedicated escapes
on both sides.  Characters above Latin-1 are excluded because the
printability model is approximate there: a genuinely non-printable rune such
as the tag `U+E0001` quotes in Go to a `\U000e0001` escape that the
scanner's relaxed arm decodes to the literal letters, breaking the round
trip. -/
def safeChar (c : Char) : Bool :=
  (goIsPrint c && c.toNat ≤ 0xff)
  || c = '\x08' || c = '\x0c' || c = '\n' || c = '\r' || c = '\t'

/-- One quoted character scans back to itself. -/
theorem getStringAux_quoteChar {c : Char} (h : safeChar c = true)
    (rest' : Str) (i : Nat) (res : Str) :
    getStringAux (quoteChar c ++ rest') i false false [] res
      = getStringAux rest' (i + (quoteChar c).length) false false [] (res ++ [c]) := by
  by_cases hq : c = '"'
  · subst hq
    simp [quoteChar, getStringAux]
  · by_cases hb : c = '\\'
    · subst hb
      simp [quoteChar, getStringAux]
    · by_cases hp : goIsPrint c = true
      · have hqc : quoteChar c = [c] := by
          unfold quoteChar
          rw [if_neg hq, if_neg hb, if_pos hp]
        rw [hqc]
        rw [List.cons_append, getStringAux]
        rw [if_neg (by simp), if_neg (by simp), if_neg (by simp [hb]),
            if_neg (by simp [hq])]
        rfl
      · have h5 : c = '\x08' ∨ c = '\x0c' ∨ c = '\n' ∨ c = '\r' ∨ c = '\t' := by
          simp [safeChar, hp] at h
          tauto
        have hqn : goIsPrint c = false := by simpa using hp
        rcases h5 with h5 | h5 | h5 | h5 | h5 <;> subst h5 <;>
          (simp [quoteChar, getStringAux, hqn]; try (congr 1; omega))

/-- A quoted body scans back to the original characters, stopping at the
closing quote. -/
theorem getStringAux_quoteBody :
    ∀ s : Str, s.all safeChar = true → ∀ (i : Nat) (res rest : Str),
      getStringAux ((s.map quoteChar).flatten ++ '"' :: rest) i false false [] res
        = .ok (i + ((s.map quoteChar).flatten).length, res ++ s, true) := by
  intro s
  induction s with
  | nil =>
    intro _ i res rest
    simp [getStringAux]
  | cons c cs ih =>
    intro h i res rest
    simp only [List.all_cons, Bool.and_eq_true] at h
    simp only [List.map_cons, List.flatten_cons, List.append_assoc]
    rw [getStringAux_quoteChar h.1]
    rw [ih h.2]
    have harith : i + (quoteChar c).length + ((List.map quoteChar cs).flatten).length
        = i + ((List.map quoteChar (c :: cs)).flatten).length := by
      simp [List.length_append]
      omega
    rw [harith, List.append_assoc]
    simp

/-- `parseString` inverts `%q` quoting on safe payloads, leaving exactly the
trailing rest. -/
theorem parseString_quote {s : Str} (hs : s.all safeChar = true)
    {rest : Str} (hrest : GoodRest rest) :
    parseString (quoteGo s ++ rest) = .ok ⟨.jstring (some s), rest, none⟩ := by
  have hshape : quoteGo s ++ rest = '"' :: ((s.map quoteChar).flatten ++ '"' :: rest) := by
    simp [quoteGo]
  have htrim : trimSpace (quoteGo s ++ rest) = quoteGo s ++ rest := by
    apply trimSpace_json_append
    · simp [quoteGo]
    · intro c hc
      unfold quoteGo at hc
      simp only [List.cons_append, List.head?_cons, Option.some.injEq] at hc
      subst hc
      rfl
    · intro c hc
      unfold quoteGo at hc
      rw [show ('"' :: (s.map quoteChar).flatten ++ ['"'] : Str)
          = ('"' :: (s.map quoteChar).flatten) ++ ['"'] from by simp] at hc
      rw [getLast?_append_right (by simp)] at hc
      cases hc
      rfl
    · exact hrest
  unfold parseString
  rw [htrim]
  rw [if_neg (by simp [quoteGo])]
  rw [if_neg (by rw [hshape]; simp)]
  have hget : getString (quoteGo s ++ rest)
      = .ok (((s.map quoteChar).flatten).length, s, true) := by
    rw [hshape]
    unfold getString
    rw [List.drop_one, List.tail_cons]
    rw [getStringAux_quoteBody s hs 0 [] rest]
    simp
  rw [hget]
  simp only [Bool.not_true, Bool.false_eq_true, if_false]
  have hdrop : (quoteGo s ++ rest).drop (((s.map quoteChar).flatten).length + 2) = rest := by
    have : quoteGo s ++ rest = ('"' :: (s.map quoteChar).flatten ++ ['"']) ++ rest := by
      simp [quoteGo]
    rw [this, List.drop_left' (by simp)]
  rw [hdrop]

/-- Signed 64-bit range of a `JsonInt` payload. -/
def intInRange (n : Int) : Bool := decide (-(2 ^ 63) ≤ n) && decide (n < 2 ^ 63)

mutual

/-- The values for which the serialize-then-parse round trip is claimed
after amendment: no Float payloads (precision loss is the spec's own
exception), strings and object keys over `safeChar` (Latin-1 printables and
the five dedicated escapes, where quoting provably inverts), non-empty
present containers (the parser rejects `[  ]` and `{  }`), distinct keys per
object, and integers in `%d`/`ParseInt` range.  Nil-interface and
typed-null slots are allowed anywhere. -/
def RTSafe : JVal → Bool
  | .jnil => true
  | .jint none => true
  | .jint (some n) => intInRange n
  | .jfloat p => p.isNone
  | .jbool _ => true
  | .jstring none => true
  | .jstring (some s) => s.all safeChar
  | .jarray none => true
  | .jarray (some l) => !l.isEmpty && RTlist l
  | .jobject none => true
  | .jobject (some m) =>
    !m.isEmpty && decide ((m.map Prod.fst).Nodup) && RTentries m

/-- `RTSafe` over array elements. -/
def RTlist : List JVal → Bool
  | [] => true
  | v :: vs => RTSafe v && RTlist vs

/-- `RTSafe` over object entries (keys must be quotable too). -/
def RTentries : List (Str × JVal) → Bool
  | [] => true
  | e :: rest => e.1.all safeChar && RTSafe e.2 && RTentries rest

end

mutual

/-- Fuel sufficient for re-parsing the serialization of a value. -/
def needFuel : JVal → Nat
  | .jarray (some l) => 3 + needFuelList l
  | .jobject (some m) => 3 + needFuelEntries m
  | _ => 1

/-- Fuel for an array-element sequence. -/
def needFuelList : List JVal → Nat
  | [] => 0
  | v :: vs => needFuel v + 1 + needFuelList vs

/-- Fuel for an object-entry sequence. -/
def needFuelEntries : List (Str × JVal) → Nat
  | [] => 0
  | e :: rest => needFuel e.2 + 1 + needFuelEntries rest

end

/-- How a re-parsed value relates to the serialized original: null states
come back as the parsed-`null` nil interface, everything else comes back
non-null and `Equal` to the original. -/
def RTrel (v v' : JVal) : Prop :=
  if v.IsNull = true then v' = .jnil
  else v.Equal v' = some true ∧ v'.IsNull = false

theorem RTlist_mem {l : List JVal} (h : RTlist l = true) :
    ∀ e ∈ l, RTSafe e = true := by
  induction l with
  | nil => intro e he; simp at he
  | cons v vs ih =>
    rw [RTlist] at h
    simp only [Bool.and_eq_true] at h
    intro e he
    rcases List.mem_cons.mp he with h1 | h1
    · exact h1 ▸ h.1
    · exact ih h.2 e h1

theorem RTentries_mem {m : List (Str × JVal)} (h : RTentries m = true) :
    ∀ e ∈ m, e.1.all safeChar = true ∧ RTSafe e.2 = true := by
  induction m with
  | nil => intro e he; simp at he
  | cons v vs ih =>
    rw [RTentries] at h
    simp only [Bool.and_eq_true] at h
    intro e he
    rcases List.mem_cons.mp he with h1 | h1
    · exact h1 ▸ ⟨h.1.1, h.1.2⟩
    · exact ih h.2 e h1

theorem RTentries_of_mem {m : List (Str × JVal)}
    (h : ∀ e ∈ m, e.1.all safeChar = true ∧ RTSafe e.2 = true) :
    RTentries m = true := by
  induction m with
  | nil => rfl
  | cons v vs ih =>
    rw [RTentries]
    simp only [Bool.and_eq_true]
    exact ⟨⟨(h v (by simp)).1, (h v (by simp)).2⟩,
      ih fun e he => h e (by simp [he])⟩

theorem needFuelList_mem {l : List JVal} : ∀ e ∈ l, needFuel e ≤ needFuelList l := by
  induction l with
  | nil => intro e he; simp at he
  | cons v vs ih =>
    intro e he
    rw [needFuelList]
    rcases List.mem_cons.mp he with h1 | h1
    · subst h1; omega
    · have := ih e h1; omega

theorem Json_of_isNull {v : JVal} (h : v.IsNull = true) : v.Json = strL "null" := by
  cases v with
  | jnil => simp [JVal.Json]
  | jint p => cases p <;> simp_all [JVal.IsNull, JVal.Json]
  | jfloat p => cases p <;> simp_all [JVal.IsNull, JVal.Json]
  | jbool p => cases p <;> simp_all [JVal.IsNull, JVal.Json]
  | jstring p => simp_all [JVal.IsNull, JVal.Json]
  | jarray p => cases p <;> simp_all [JVal.IsNull, JVal.Json]
  | jobject p => cases p <;> simp_all [JVal.IsNull, JVal.Json]

theorem jsonList_eq_map (l : List JVal) : jsonList l = l.map JVal.Json := by
  induction l with
  | nil => rfl
  | cons v vs ih => simp [jsonList, ih]

theorem joinComma_singleton (x : Str) : joinComma [x] = x := by
  simp [joinComma, List.intercalate]

theorem joinComma_cons_cons (x y : Str) (t : List Str) :
    joinComma (x :: y :: t) = x ++ ',' :: ' ' :: joinComma (y :: t) := by
  simp [joinComma, List.intercalate, List.intersperse]

theorem getLast?_cons_ne_nil {c : Char} {l : Str} (h : l ≠ []) :
    (c :: l).getLast? = l.getLast? := by
  cases l with
  | nil => exact absurd rfl h
  | cons d ds => exact List.getLast?_cons_cons

/-- Building a good rest: separator (or a space), arbitrary middle, closing
bracket, then a previous good rest. -/
theorem goodRest_mk {c : Char} (hc : c = ',' ∨ c = ' ') {mid rest : Str} {b : Char}
    (hb : b = ']' ∨ b = '\x7d') (h : GoodRest rest) :
    GoodRest (c :: (mid ++ b :: rest)) := by
  refine Or.inr ⟨?_, ?_⟩
  · rcases hc with hc | hc <;> subst hc
    · exact Or.inl rfl
    · exact Or.inr rfl
  · have hstep : (c :: (mid ++ b :: rest)).getLast? = (b :: rest).getLast? := by
      rw [show (c :: (mid ++ b :: rest) : Str) = (c :: mid) ++ b :: rest from by simp]
      exact getLast?_append_right (by simp)
    rw [hstep]
    by_cases hr : rest = []
    · subst hr
      rcases hb with hb | hb <;> subst hb
      · exact Or.inl rfl
      · exact Or.inr rfl
    · rw [getLast?_cons_ne_nil hr]
      rcases h with h | ⟨_, h2⟩
      · exact absurd h hr
      · exact h2

theorem objInsert_fresh {k : Str} {v : JVal} {m : List (Str × JVal)}
    (h : k ∉ m.map Prod.fst) : objInsert k v m = m ++ [(k, v)] := by
  induction m with
  | nil => rfl
  | cons e rest ih =>
    simp only [List.map_cons, List.mem_cons, not_or] at h
    rw [objInsert, if_neg (fun he => h.1 he.symm)]
    rw [ih h.2]
    simp

theorem forall₂_lookup_left {R : JVal → JVal → Prop}
    {l l' : List (Str × JVal)}
    (h : List.Forall₂ (fun a b => a.1 = b.1 ∧ R a.2 b.2) l l') :
    ∀ {k : Str} {v : JVal}, List.lookup k l = some v →
      ∃ v', List.lookup k l' = some v' ∧ R v v' := by
  induction h with
  | nil => intro k v hv; simp [List.lookup] at hv
  | cons he ht ih =>
    intro k v hv
    next a b l₁ l₂ =>
      rw [List.lookup] at hv ⊢
      rw [← he.1]
      cases hk : (k == a.1) with
      | true =>
        rw [hk] at hv
        cases hv
        exact ⟨b.2, rfl, he.2⟩
      | false =>
        rw [hk] at hv
        exact ih hv

theorem forall₂_mem_right {R : JVal → JVal → Prop}
    {l l' : List (Str × JVal)}
    (h : List.Forall₂ (fun a b => a.1 = b.1 ∧ R a.2 b.2) l l') :
    ∀ e' ∈ l', ∃ e ∈ l, e.1 = e'.1 ∧ R e.2 e'.2 := by
  induction h with
  | nil => intro e' he'; simp at he'
  | cons he ht ih =>
    intro e' he'
    next a b l₁ l₂ =>
      rcases List.mem_cons.mp he' with h1 | h1
      · exact ⟨a, by simp, by rw [h1]; exact he.1, by rw [h1]; exact he.2⟩
      · obtain ⟨e, hm, hk, hr⟩ := ih e' h1
        exact ⟨e, by simp [hm], hk, hr⟩

theorem isJnil_eq_false_of_not_null {v : JVal} (h : v.IsNull = false) :
    isJnil v = false := by
  cases v with
  | jnil => simp [JVal.IsNull] at h
  | _ => rfl

theorem RTrel_null {v v' : JVal} (h : RTrel v v') (hn : v.IsNull = true) :
    v' = .jnil := by
  unfold RTrel at h
  rwa [if_pos hn] at h

theorem RTrel_not_null {v v' : JVal} (h : RTrel v v') (hn : v.IsNull = false) :
    v.Equal v' = some true ∧ v'.IsNull = false := by
  unfold RTrel at h
  rwa [if_neg (by simp [hn])] at h

/-- Pairwise round-trip related elements satisfy the array-equality loop. -/
theorem arrEqLoop_of_forall₂ {l l' : List JVal} (h : List.Forall₂ RTrel l l') :
    arrEqLoop l l' = some true := by
  induction h with
  | nil => simp [arrEqLoop]
  | cons he ht ih =>
    next v v' l₁ l₂ =>
      rw [arrEqLoop]
      by_cases hn : v.IsNull = true
      · have := RTrel_null he hn
        subst this
        rw [if_pos (by rw [Bool.and_eq_true]; exact ⟨hn, rfl⟩)]
        exact ih
      · obtain ⟨heq, hn'⟩ := RTrel_not_null he (by simpa using hn)
        rw [if_neg (by simp [hn']),
            if_neg (by simp [isJnil_eq_false_of_not_null (by simpa using hn)]),
            if_neg (by simp [isJnil_eq_false_of_not_null hn']), heq]
        exact ih

/-- Walking `m'` against `m2` succeeds when every `m'` entry's key finds a
round-trip related partner. -/
theorem cmpMapLoop_of_lookup :
    ∀ m' m2 : List (Str × JVal),
      (∀ e ∈ m', ∃ o, List.lookup e.1 m2 = some o ∧ RTrel e.2 o) →
      cmpMapLoop m' m2 = some true := by
  intro m'
  induction m' with
  | nil => intro m2 _; simp [cmpMapLoop]
  | cons e rest ih =>
    intro m2 h
    obtain ⟨k, v⟩ := e
    obtain ⟨o, ho, hrel⟩ := h (k, v) (by simp)
    rw [cmpMapLoop]
    split
    case _ heq => rw [ho] at heq; cases heq
    case _ o' heq =>
      have ho' : o' = o := by
        have := ho.symm.trans heq
        exact (Option.some.inj this).symm
      subst ho'
      by_cases hn : (v : JVal).IsNull = true
      · have := RTrel_null hrel hn
        subst this
        rw [if_pos (by rw [Bool.and_eq_true]; exact ⟨hn, rfl⟩)]
        exact ih m2 fun e he => h e (by simp [he])
      · obtain ⟨heq2, hn'⟩ := RTrel_not_null hrel (by simpa using hn)
        rw [if_neg (by simp [hn']),
            if_neg (by simp [isJnil_eq_false_of_not_null (by simpa using hn)]), heq2]
        exact ih m2 fun e he => h e (by simp [he])

/-- The reverse walk: every parsed entry's key finds the original value, to
which the parsed value is round-trip related. -/
theorem cmpMapLoop_rev_of_lookup :
    ∀ m' m2 : List (Str × JVal),
      (∀ e ∈ m', ∃ o, List.lookup e.1 m2 = some o ∧ RTrel o e.2) →
      cmpMapLoop m' m2 = some true := by
  intro m'
  induction m' with
  | nil => intro m2 _; simp [cmpMapLoop]
  | cons e rest ih =>
    intro m2 h
    obtain ⟨k, v'⟩ := e
    obtain ⟨o, ho, hrel⟩ := h (k, v') (by simp)
    rw [cmpMapLoop]
    split
    case _ heq => rw [ho] at heq; cases heq
    case _ o' heq =>
      have ho' : o' = o := by
        have := ho.symm.trans heq
        exact (Option.some.inj this).symm
      rw [ho']
      by_cases hn : (o : JVal).IsNull = true
      · have := RTrel_null hrel hn
        subst this
        rw [if_pos (by rw [Bool.and_eq_true]; exact ⟨rfl, hn⟩)]
        exact ih m2 fun e he => h e (by simp [he])
      · obtain ⟨heq2, hn'⟩ := RTrel_not_null hrel (by simpa using hn)
        have hone : (o : JVal) ≠ .jnil := ne_jnil_of_not_null (by simpa using hn)
        have hvne : (v' : JVal) ≠ .jnil := ne_jnil_of_not_null hn'
        have hsym : (v' : JVal).Equal o = some true := equal_symm_true hone hvne heq2
        rw [if_neg (by simp [hn']),
            if_neg (by simp [isJnil_eq_false_of_not_null hn']), hsym]
        exact ih m2 fun e he => h e (by simp [he])

theorem keyLe_map {g : Str × JVal → Str × Str} (hg : ∀ e, (g e).1 = e.1)
    (a b : Str × JVal) : keyLe (g a) (g b) ↔ keyLe a b := by
  unfold keyLe
  rw [hg, hg]

theorem orderedInsert_map {g : Str × JVal → Str × Str} (hg : ∀ e, (g e).1 = e.1)
    (a : Str × JVal) (l : List (Str × JVal)) :
    List.orderedInsert keyLe (g a) (l.map g)
      = (List.orderedInsert keyLe a l).map g := by
  induction l with
  | nil => rfl
  | cons b t ih =>
    simp only [List.map_cons, List.orderedInsert]
    by_cases h : keyLe a b
    · rw [if_pos ((keyLe_map hg a b).mpr h), if_pos h]
      simp
    · rw [if_neg (fun hc => h ((keyLe_map hg a b).mp hc)), if_neg h]
      simp [ih]

theorem insertionSort_map {g : Str × JVal → Str × Str} (hg : ∀ e, (g e).1 = e.1)
    (l : List (Str × JVal)) :
    List.insertionSort keyLe (l.map g) = (List.insertionSort keyLe l).map g := by
  induction l with
  | nil => rfl
  | cons a t ih =>
    simp only [List.map_cons, List.insertionSort]
    rw [ih, orderedInsert_map hg]

/-- Per-entry text of a serialized object. -/
def entryText (e : Str × JVal) : Str := quoteGo e.1 ++ ':' :: ' ' :: e.2.Json

/-- The object serializer, re-expressed over the key-sorted entry list. -/
theorem objJson_decomp (m : List (Str × JVal)) :
    (JVal.jobject (some m)).Json
      = '\x7b' :: ' ' :: joinComma ((List.insertionSort keyLe m).map entryText)
        ++ [' ', '\x7d'] := by
  simp only [JVal.Json, jsonEntries_eq_map]
  unfold sortEntries
  rw [insertionSort_map (fun e => rfl)]
  rw [List.map_map]
  rfl

theorem needFuelEntries_perm {l l' : List (Str × JVal)} (h : l.Perm l') :
    needFuelEntries l = needFuelEntries l' := by
  induction h with
  | nil => rfl
  | cons x _ ih => simp [needFuelEntries, ih]
  | swap x y l => simp [needFuelEntries]; omega
  | trans _ _ ih1 ih2 => omega

/-- Unfold one dispatch step of `ParseValue` on already-trimmed input. -/
theorem parseValueF_dispatch {f : Nat} {c : Char} {cs : Str}
    (hs : trimSpace (c :: cs) = c :: cs) :
    parseValueF (f + 1) (c :: cs) =
      (if c = '\x7b' then parseObjectF f (c :: cs)
       else if c = '[' then parseArrayF f (c :: cs)
       else if c = '"' then
         (match parseString (c :: cs) with
          | .error p => .error (.fatal p)
          | .ok r => .ok r)
       else if c = '-' || c = '+' || isDigit c then .ok (parseNumber (c :: cs))
       else if c = 't' || c = 'f' then .ok (parseBool (c :: cs))
       else if c = 'n' then .ok (parseNull (c :: cs))
       else .ok ⟨.jnil, [], some .badValue⟩) := by
  conv_lhs => rw [parseValueF]
  rw [hs]

theorem strL_null_facts : strL "null" ≠ [] ∧
    (∀ c, (strL "null").head? = some c → goIsSpace c = false) ∧
    (∀ c, (strL "null").getLast? = some c → goIsSpace c = false) := by
  refine ⟨by decide, ?_, ?_⟩ <;> (intro c hc; simp [strL] at hc; subst hc; decide)

/-- Serializations of round-trip-safe values are non-empty and begin and end
in non-space characters. -/
theorem Json_facts {v : JVal} (h : RTSafe v = true) :
    v.Json ≠ [] ∧ (∀ c, v.Json.head? = some c → goIsSpace c = false)
      ∧ (∀ c, v.Json.getLast? = some c → goIsSpace c = false) := by
  by_cases hn : v.IsNull = true
  · rw [Json_of_isNull hn]
    exact strL_null_facts
  · cases v with
    | jnil => simp [JVal.IsNull] at hn
    | jint p =>
      cases p with
      | none => simp [JVal.IsNull] at hn
      | some n =>
        have hj : (JVal.jint (some n)).Json = intRepr n := by simp [JVal.Json]
        rw [hj]
        refine ⟨intRepr_ne_nil n, ?_, ?_⟩
        · intro c hc
          exact not_space_of_intRepr_char (List.mem_of_mem_head? hc)
        · intro c hc
          exact not_space_of_intRepr_char (List.mem_of_mem_getLast? hc)
    | jfloat p =>
      cases p with
      | none => simp [JVal.IsNull] at hn
      | some q => simp [RTSafe] at h
    | jbool p =>
      cases p with
      | none => simp [JVal.IsNull] at hn
      | some b =>
        cases b with
        | true =>
          have hj : (JVal.jbool (some true)).Json = strL "true" := by simp [JVal.Json]
          rw [hj]
          refine ⟨by decide, ?_, ?_⟩ <;>
            (intro c hc; simp [strL] at hc; subst hc; decide)
        | false =>
          have hj : (JVal.jbool (some false)).Json = strL "false" := by simp [JVal.Json]
          rw [hj]
          refine ⟨by decide, ?_, ?_⟩ <;>
            (intro c hc; simp [strL] at hc; subst hc; decide)
    | jstring p =>
      have hns : strNullB p = false := by
        rw [JVal.IsNull] at hn
        simpa using hn
      have hj : (JVal.jstring p).Json = quoteGo (p.getD []) := by
        simp [JVal.Json, hns]
      rw [hj]
      refine ⟨by simp [quoteGo], ?_, ?_⟩
      · intro c hc
        unfold quoteGo at hc
        simp only [List.cons_append, List.head?_cons, Option.some.injEq] at hc
        subst hc; decide
      · intro c hc
        unfold quoteGo at hc
        rw [show ('"' :: ((p.getD []).map quoteChar).flatten ++ ['"'] : Str)
            = ('"' :: ((p.getD []).map quoteChar).flatten) ++ ['"'] from by simp] at hc
        rw [getLast?_append_right (by simp)] at hc
        cases hc; decide
    | jarray p =>
      cases p with
      | none => simp [JVal.IsNull] at hn
      | some l =>
        have hj : (JVal.jarray (some l)).Json
            = ('[' :: ' ' :: joinComma (jsonList l)) ++ [' ', ']'] := by
          simp [JVal.Json]
        rw [hj]
        refine ⟨by simp, ?_, ?_⟩
        · intro c hc
          rw [head?_append_left (by simp)] at hc
          simp only [List.head?_cons, Option.some.injEq] at hc
          subst hc; decide
        · intro c hc
          rw [getLast?_append_right (by simp)] at hc
          simp only [List.getLast?_cons_cons, List.getLast?_singleton,
            Option.some.injEq] at hc
          subst hc; decide
    | jobject p =>
      cases p with
      | none => simp [JVal.IsNull] at hn
      | some m =>
        have hj : (JVal.jobject (some m)).Json
            = ('\x7b' :: ' ' :: joinComma ((sortEntries (jsonEntries m)).map renderEntry))
              ++ [' ', '\x7d'] := by
          simp [JVal.Json]
        rw [hj]
        refine ⟨by simp, ?_, ?_⟩
        · intro c hc
          rw [head?_append_left (by simp)] at hc
          simp only [List.head?_cons, Option.some.injEq] at hc
          subst hc; decide
        · intro c hc
          rw [getLast?_append_right (by simp)] at hc
          simp only [List.getLast?_cons_cons, List.getLast?_singleton,
            Option.some.injEq] at hc
          subst hc; decide

/-- Appending a good rest to a safe serialization is trim-stable. -/
theorem trimSpace_Json_append {v : JVal} (h : RTSafe v = true) {rest : Str}
    (hr : GoodRest rest) : trimSpace (v.Json ++ rest) = v.Json ++ rest := by
  obtain ⟨h1, h2, h3⟩ := Json_facts h
  exact trimSpace_json_append h1 h2 h3 hr

/-- A null-state typed value compares `Equal` to the nil interface. -/
theorem equal_jnil_of_null {v : JVal} (hn : v.IsNull = true) (hv : v ≠ .jnil) :
    v.Equal .jnil = some true := by
  cases v with
  | jnil => exact absurd rfl hv
  | jint p =>
    rw [JVal.IsNull, Option.isNone_iff_eq_none] at hn
    subst hn; simp [JVal.Equal]
  | jfloat p =>
    rw [JVal.IsNull, Option.isNone_iff_eq_none] at hn
    subst hn; simp [JVal.Equal]
  | jbool p =>
    rw [JVal.IsNull, Option.isNone_iff_eq_none] at hn
    subst hn; simp [JVal.Equal]
  | jstring p =>
    rw [JVal.IsNull] at hn
    simp [JVal.Equal, hn]
  | jarray p =>
    rw [JVal.IsNull, Option.isNone_iff_eq_none] at hn
    subst hn; simp [JVal.Equal]
  | jobject p =>
    rw [JVal.IsNull, Option.isNone_iff_eq_none] at hn
    subst hn; simp [JVal.Equal]

theorem parseValueF_obj {f : Nat} {c : Char} {cs : Str}
    (hs : trimSpace (c :: cs) = c :: cs) (hc : c = '\x7b') :
    parseValueF (f + 1) (c :: cs) = parseObjectF f (c :: cs) := by
  rw [parseValueF_dispatch hs, if_pos hc]

theorem parseValueF_arr {f : Nat} {c : Char} {cs : Str}
    (hs : trimSpace (c :: cs) = c :: cs) (hc : c = '[') :
    parseValueF (f + 1) (c :: cs) = parseArrayF f (c :: cs) := by
  subst hc
  rw [parseValueF_dispatch hs]
  rw [if_neg (by decide), if_pos rfl]

theorem parseValueF_str {f : Nat} {c : Char} {cs : Str}
    (hs : trimSpace (c :: cs) = c :: cs) (hc : c = '"') :
    parseValueF (f + 1) (c :: cs) =
      (match parseString (c :: cs) with
       | .error p => .error (.fatal p)
       | .ok r => .ok r) := by
  subst hc
  rw [parseValueF_dispatch hs]
  rw [if_neg (by decide), if_neg (by decide), if_pos rfl]

theorem parseValueF_num {f : Nat} {c : Char} {cs : Str}
    (hs : trimSpace (c :: cs) = c :: cs) (hc : c = '-' ∨ isDigit c = true) :
    parseValueF (f + 1) (c :: cs) = .ok (parseNumber (c :: cs)) := by
  have hne : ∀ d : Char, d = '\x7b' ∨ d = '[' ∨ d = '"' → ¬(c = d) := by
    intro d hd he
    subst he
    rcases hc with hc | hc
    · rcases hd with hd | hd | hd <;> simp [hc] at hd
    · rcases hd with hd | hd | hd <;> (subst hd; simp [isDigit] at hc)
  rw [parseValueF_dispatch hs]
  rw [if_neg (hne _ (Or.inl rfl)), if_neg (hne _ (Or.inr (Or.inl rfl))),
      if_neg (hne _ (Or.inr (Or.inr rfl)))]
  rw [if_pos (by rcases hc with hc | hc <;> simp [hc])]

theorem parseValueF_bool {f : Nat} {c : Char} {cs : Str}
    (hs : trimSpace (c :: cs) = c :: cs) (hc : c = 't' ∨ c = 'f') :
    parseValueF (f + 1) (c :: cs) = .ok (parseBool (c :: cs)) := by
  rw [parseValueF_dispatch hs]
  rcases hc with hc | hc <;> subst hc <;>
    rw [if_neg (by decide), if_neg (by decide), if_neg (by decide),
      if_neg (by decide), if_pos (by decide)]

theorem parseValueF_null {f : Nat} {c : Char} {cs : Str}
    (hs : trimSpace (c :: cs) = c :: cs) (hc : c = 'n') :
    parseValueF (f + 1) (c :: cs) = .ok (parseNull (c :: cs)) := by
  subst hc
  rw [parseValueF_dispatch hs]
  rw [if_neg (by decide), if_neg (by decide), if_neg (by decide),
    if_neg (by decide), if_neg (by decide), if_pos rfl]

theorem getLast_close_not_space {b : Char} (hb : b = ']' ∨ b = '\x7d') {rest : Str}
    (hr : GoodRest rest) : ∀ c, (b :: rest).getLast? = some c → goIsSpace c = false := by
  intro c hc
  by_cases hrn : rest = []
  · subst hrn
    simp only [List.getLast?_singleton, Option.some.injEq] at hc
    subst hc
    rcases hb with hb | hb <;> subst hb <;> decide
  · rw [getLast?_cons_ne_nil hrn] at hc
    exact goodRest_getLast_not_space hr c hc

theorem trimSpace_space_close {b : Char} (hb : b = ']' ∨ b = '\x7d') {rest : Str}
    (hr : GoodRest rest) : trimSpace (' ' :: b :: rest) = b :: rest := by
  rw [trimSpace_cons_space (by decide)]
  apply trimSpace_eq_self
  · intro c hc
    simp only [List.head?_cons, Option.some.injEq] at hc
    subst hc
    rcases hb with hb | hb <;> subst hb <;> decide
  · exact getLast_close_not_space hb hr

theorem trimSpace_elems_close {X rest : Str} {b : Char} (hb : b = ']' ∨ b = '\x7d')
    (hr : GoodRest rest) (hne : X ≠ [])
    (hhead : ∀ c, X.head? = some c → goIsSpace c = false) :
    trimSpace (X ++ ' ' :: b :: rest) = X ++ ' ' :: b :: rest := by
  apply trimSpace_eq_self
  · intro c hc
    rw [head?_append_left hne] at hc
    exact hhead c hc
  · intro c hc
    rw [getLast?_append_right (by simp)] at hc
    rw [getLast?_cons_ne_nil (by simp)] at hc
    exact getLast_close_not_space hb hr c hc

theorem jsonList_cons (v : JVal) (vs : List JVal) :
    jsonList (v :: vs) = v.Json :: jsonList vs := by
  rw [jsonList]

theorem joinComma_head_of_ne_nil {x : Str} (hx : x ≠ []) (t : List Str) :
    (joinComma (x :: t)).head? = x.head? ∧ joinComma (x :: t) ≠ [] := by
  cases t with
  | nil => rw [joinComma_singleton]; exact ⟨rfl, hx⟩
  | cons y t' =>
    rw [joinComma_cons_cons]
    refine ⟨head?_append_left hx, by simp [hx]⟩

theorem arrLoopF_step {f : Nat} {t : Str} (hne : t ≠ []) {v' : JVal} {t' : Str}
    (hpv : parseValueF f t = .ok ⟨v', t', none⟩) (acc : Option (List JVal)) :
    arrLoopF (f + 1) t acc =
      (let acc' := some (acc.getD [] ++ [v'])
       let t3 := trimSpace t'
       if t3 = [] then .ok ⟨.jarray acc', [], some .syntaxError⟩
       else if t3.head? = some ']' then .ok ⟨.jarray acc', trimSpace (t3.drop 1), none⟩
       else if t3.head? = some ',' then
         let t4 := trimSpace (t3.drop 1)
         if t4 = [] then .ok ⟨.jarray acc', [], some .missedValue⟩
         else arrLoopF f t4 acc'
       else .ok ⟨.jarray acc', t3, some .badTail⟩) := by
  rw [arrLoopF, if_neg hne, hpv]
  rfl

theorem objLoopF_step {f : Nat} {t : Str} (hne : t ≠ []) (hq : t.head? = some '"')
    {xi : Nat} {name : Str} (hget : getString t = .ok (xi, name, true))
    {t1 : Str} (ht1 : trimSpace (t.drop (xi + 2)) = t1) (h1ne : t1 ≠ [])
    (h1c : t1.head? = some ':') (h2ne : trimSpace (t1.drop 1) ≠ [])
    {v' : JVal} {t' : Str}
    (hpv : parseValueF f (trimSpace (t1.drop 1)) = .ok ⟨v', t', none⟩)
    (acc : Option (List (Str × JVal))) :
    objLoopF (f + 1) t acc =
      (let acc' := some (objInsert name v' (acc.getD []))
       let t3 := trimSpace t'
       if t3 = [] then .ok ⟨.jobject acc', [], some .syntaxError⟩
       else if t3.head? = some '\x7d' then .ok ⟨.jobject acc', trimSpace (t3.drop 1), none⟩
       else if t3.head? = some ',' then
         let t4 := trimSpace (t3.drop 1)
         if t4 = [] then .ok ⟨.jobject acc', [], some .missedValue⟩
         else objLoopF f t4 acc'
       else .ok ⟨.jobject acc', t3, some .badTail⟩) := by
  rw [objLoopF, if_neg hne, if_neg (not_not_intro hq), hget]
  simp only [Bool.not_true, Bool.false_eq_true, if_false, ht1]
  rw [if_neg (by simp [h1ne, h1c]), if_neg h2ne, hpv]
  rfl

/-- The element loop of `parseArray` consumes the serialized elements and the
closing bracket, appending round-trip related values to the accumulator. -/
theorem arrLoop_rt :
    ∀ l : List JVal,
      (∀ e ∈ l, ∀ f rest, needFuel e ≤ f → GoodRest rest →
        ∃ v' t', parseValueF f (e.Json ++ rest) = .ok ⟨v', t', none⟩ ∧
          (t' = rest ∨ t' = trimSpace rest) ∧ RTrel e v') →
      l ≠ [] → RTlist l = true →
      ∀ f, needFuelList l ≤ f → ∀ (acc : Option (List JVal)) (rest : Str), GoodRest rest →
      ∃ l', arrLoopF f (joinComma (jsonList l) ++ ' ' :: ']' :: rest) acc
          = .ok ⟨.jarray (some (acc.getD [] ++ l')), trimSpace rest, none⟩
        ∧ List.Forall₂ RTrel l l' := by
  intro l
  induction l with
  | nil => intro _ hne; exact absurd rfl hne
  | cons v vs ih =>
    intro IH _ hsafe f hf acc rest hrest
    rw [RTlist, Bool.and_eq_true] at hsafe
    obtain ⟨hsv, hsvs⟩ := hsafe
    rw [needFuelList] at hf
    obtain ⟨f', rfl⟩ : ∃ f', f = f' + 1 := ⟨f - 1, by omega⟩
    have hfv : needFuel v ≤ f' := by omega
    obtain ⟨hJne, hJhead, _⟩ := Json_facts hsv
    cases vs with
    | nil =>
      have hshape : joinComma (jsonList [v]) ++ ' ' :: ']' :: rest
          = v.Json ++ (' ' :: ']' :: rest) := by
        rw [jsonList_cons, jsonList, joinComma_singleton]
      have hrest1 : GoodRest (' ' :: ']' :: rest) := by
        have := @goodRest_mk ' ' (Or.inr rfl) [] rest ']' (Or.inl rfl) hrest
        simpa using this
      obtain ⟨v', t', hpv, ht', hrel⟩ := IH v (by simp) f' (' ' :: ']' :: rest) hfv hrest1
      have ht3 : trimSpace t' = ']' :: rest := by
        rcases ht' with h | h <;> rw [h]
        · exact trimSpace_space_close (Or.inl rfl) hrest
        · rw [trimSpace_idem]
          exact trimSpace_space_close (Or.inl rfl) hrest
      refine ⟨[v'], ?_, List.Forall₂.cons hrel List.Forall₂.nil⟩
      rw [hshape, arrLoopF_step (by simp [hJne]) hpv acc]
      simp only [ht3]
      rw [if_neg (by simp),
        if_pos (show List.head? (']' :: rest) = some ']' from rfl)]
      rfl
    | cons w ws =>
      have hwsafe : RTSafe w = true := by
        rw [RTlist, Bool.and_eq_true] at hsvs
        exact hsvs.1
      obtain ⟨hWne, hWhead, _⟩ := Json_facts hwsafe
      have hJtail_head : (joinComma (jsonList (w :: ws))).head? = w.Json.head? := by
        rw [jsonList_cons w ws]
        exact (joinComma_head_of_ne_nil hWne (jsonList ws)).1
      have hJtail_ne : joinComma (jsonList (w :: ws)) ≠ [] := by
        rw [jsonList_cons w ws]
        exact (joinComma_head_of_ne_nil hWne (jsonList ws)).2
      have hshape : joinComma (jsonList (v :: w :: ws)) ++ ' ' :: ']' :: rest
          = v.Json ++ (',' :: ' ' :: (joinComma (jsonList (w :: ws)) ++ ' ' :: ']' :: rest)) := by
        rw [jsonList_cons v (w :: ws), jsonList_cons w ws, joinComma_cons_cons]
        simp
      have hrest1 : GoodRest (',' :: ' ' :: (joinComma (jsonList (w :: ws)) ++ ' ' :: ']' :: rest)) := by
        have := @goodRest_mk ',' (Or.inl rfl)
          (' ' :: joinComma (jsonList (w :: ws)) ++ [' ']) rest ']' (Or.inl rfl) hrest
        simpa using this
      obtain ⟨v', t', hpv, ht', hrel⟩ := IH v (by simp) f' _ hfv hrest1
      have heq := @trimSpace_elems_close
        (',' :: ' ' :: joinComma (jsonList (w :: ws))) rest ']'
        (Or.inl rfl) hrest (by simp)
        (by intro c hc; simp only [List.head?_cons, Option.some.injEq] at hc; subst hc; decide)
      simp only [List.cons_append] at heq
      have ht3 : trimSpace t'
          = ',' :: ' ' :: (joinComma (jsonList (w :: ws)) ++ ' ' :: ']' :: rest) := by
        rcases ht' with h | h <;> rw [h]
        · exact heq
        · rw [trimSpace_idem]; exact heq
      have ht4 : trimSpace (' ' :: (joinComma (jsonList (w :: ws)) ++ ' ' :: ']' :: rest))
          = joinComma (jsonList (w :: ws)) ++ ' ' :: ']' :: rest := by
        rw [trimSpace_cons_space (by decide)]
        exact trimSpace_elems_close (Or.inl rfl) hrest hJtail_ne
          (fun c hc => hWhead c (hJtail_head ▸ hc))
      have hihf : needFuelList (w :: ws) ≤ f' := by omega
      obtain ⟨l'', hrun, hfa⟩ := ih
        (fun e he f rest hfe hre => IH e (by simp [he]) f rest hfe hre)
        (by simp) hsvs f' hihf (some (acc.getD [] ++ [v'])) rest hrest
      refine ⟨v' :: l'', ?_, List.Forall₂.cons hrel hfa⟩
      rw [hshape, arrLoopF_step (by simp [hJne]) hpv acc]
      simp only [ht3]
      rw [if_neg (by simp), if_neg (by simp),
        if_pos (show List.head? (',' :: ' ' :: (joinComma (jsonList (w :: ws)) ++ ' ' :: ']' :: rest)) = some ',' from rfl)]
      simp only [List.drop_succ_cons, List.drop_zero, ht4]
      rw [if_neg (by simp), hrun]
      simp

theorem getString_quoteGo {k : Str} (hk : k.all safeChar = true) (after : Str) :
    getString (quoteGo k ++ after)
      = .ok (((k.map quoteChar).flatten).length, k, true) := by
  unfold getString
  have hshape : (quoteGo k ++ after : Str)
      = '"' :: ((k.map quoteChar).flatten ++ '"' :: after) := by simp [quoteGo]
  rw [hshape, List.drop_one, List.tail_cons, getStringAux_quoteBody k hk 0 [] after]
  simp

theorem drop_quoteGo (k : Str) (after : Str) :
    (quoteGo k ++ after).drop (((k.map quoteChar).flatten).length + 2) = after := by
  have hshape : (quoteGo k ++ after : Str)
      = ('"' :: (k.map quoteChar).flatten ++ ['"']) ++ after := by simp [quoteGo]
  rw [hshape, List.drop_left' (by simp)]

theorem entryText_ne_nil (e : Str × JVal) : entryText e ≠ [] := by
  simp [entryText, quoteGo]

theorem entryText_head (e : Str × JVal) : (entryText e).head? = some '"' := by
  rw [entryText, head?_append_left (by simp [quoteGo])]
  simp [quoteGo]

theorem trimSpace_colon_body {J rest1 : Str} (hJne : J ≠ []) (hr1 : GoodRest rest1)
    (hr1ne : rest1 ≠ []) :
    trimSpace (':' :: ' ' :: (J ++ rest1)) = ':' :: ' ' :: (J ++ rest1) := by
  apply trimSpace_eq_self
  · intro c hc
    simp only [List.head?_cons, Option.some.injEq] at hc
    subst hc; decide
  · intro c hc
    rw [getLast?_cons_ne_nil (by simp), getLast?_cons_ne_nil (by simp [hr1ne]),
        getLast?_append_right hr1ne] at hc
    exact goodRest_getLast_not_space hr1 c hc

/-- The entry loop of `parseObject` consumes the serialized entries and the
closing brace, inserting round-trip related values under the original keys. -/
theorem objLoop_rt :
    ∀ m : List (Str × JVal),
      (∀ e ∈ m, ∀ f rest, needFuel e.2 ≤ f → GoodRest rest →
        ∃ v' t', parseValueF f (e.2.Json ++ rest) = .ok ⟨v', t', none⟩ ∧
          (t' = rest ∨ t' = trimSpace rest) ∧ RTrel e.2 v') →
      m ≠ [] →
      (∀ e ∈ m, e.1.all safeChar = true ∧ RTSafe e.2 = true) →
      (m.map Prod.fst).Nodup →
      ∀ f, needFuelEntries m ≤ f →
      ∀ (acc : Option (List (Str × JVal))) (rest : Str), GoodRest rest →
      (∀ e ∈ m, e.1 ∉ (acc.getD []).map Prod.fst) →
      ∃ m', objLoopF f (joinComma (m.map entryText) ++ ' ' :: '\x7d' :: rest) acc
          = .ok ⟨.jobject (some (acc.getD [] ++ m')), trimSpace rest, none⟩
        ∧ List.Forall₂ (fun a b => a.1 = b.1 ∧ RTrel a.2 b.2) m m' := by
  intro m
  induction m with
  | nil => intro _ hne; exact absurd rfl hne
  | cons e ms ih =>
    obtain ⟨k, v⟩ := e
    intro IH _ hsafe hnodup f hf acc rest hrest hacc
    obtain ⟨hk, hsv⟩ := hsafe ⟨k, v⟩ (by simp)
    rw [needFuelEntries] at hf
    obtain ⟨f', rfl⟩ : ∃ f', f = f' + 1 := ⟨f - 1, by omega⟩
    have hfv : needFuel v ≤ f' := by
      have hh : needFuel ((k, v) : Str × JVal).2 = needFuel v := rfl
      omega
    obtain ⟨hJne, hJhead, _⟩ := Json_facts hsv
    have hqne : quoteGo k ≠ [] := by simp [quoteGo]
    have hkfresh : k ∉ (acc.getD []).map Prod.fst := hacc ⟨k, v⟩ (by simp)
    cases ms with
    | nil =>
      have hshape : joinComma ((([(k, v)] : List (Str × JVal))).map entryText)
            ++ ' ' :: '\x7d' :: rest
          = quoteGo k ++ (':' :: ' ' :: (v.Json ++ (' ' :: '\x7d' :: rest))) := by
        simp [entryText, joinComma_singleton]
      have hrest1 : GoodRest (' ' :: '\x7d' :: rest) := by
        have := @goodRest_mk ' ' (Or.inr rfl) [] rest '\x7d' (Or.inr rfl) hrest
        simpa using this
      obtain ⟨v', t', hpv, ht', hrel⟩ :=
        IH ⟨k, v⟩ (by simp) f' (' ' :: '\x7d' :: rest) hfv hrest1
      have hdrop : (quoteGo k ++ (':' :: ' ' :: (v.Json ++ (' ' :: '\x7d' :: rest))) : Str).drop
            (((k.map quoteChar).flatten).length + 2)
          = ':' :: ' ' :: (v.Json ++ (' ' :: '\x7d' :: rest)) := drop_quoteGo k _
      have ht1 : trimSpace ((quoteGo k ++ (':' :: ' ' :: (v.Json ++ (' ' :: '\x7d' :: rest))) : Str).drop
            (((k.map quoteChar).flatten).length + 2))
          = ':' :: ' ' :: (v.Json ++ (' ' :: '\x7d' :: rest)) := by
        rw [hdrop]
        exact trimSpace_colon_body hJne hrest1 (by simp)
      have ht2 : trimSpace ((':' :: ' ' :: (v.Json ++ (' ' :: '\x7d' :: rest)) : Str).drop 1)
          = v.Json ++ (' ' :: '\x7d' :: rest) := by
        rw [List.drop_succ_cons, List.drop_zero, trimSpace_cons_space (by decide)]
        exact trimSpace_Json_append hsv hrest1
      have hpv2 : parseValueF f' (trimSpace ((':' :: ' ' :: (v.Json ++ (' ' :: '\x7d' :: rest)) : Str).drop 1))
          = .ok ⟨v', t', none⟩ := by rw [ht2]; exact hpv
      have ht3 : trimSpace t' = '\x7d' :: rest := by
        rcases ht' with h | h <;> rw [h]
        · exact trimSpace_space_close (Or.inr rfl) hrest
        · rw [trimSpace_idem]
          exact trimSpace_space_close (Or.inr rfl) hrest
      refine ⟨[(k, v')], ?_, List.Forall₂.cons ⟨rfl, hrel⟩ List.Forall₂.nil⟩
      rw [hshape, objLoopF_step (by simp [hqne]) (by rw [head?_append_left hqne]; simp [quoteGo])
        (getString_quoteGo hk _) ht1 (by simp) rfl (by rw [ht2]; simp [hJne]) hpv2 acc]
      simp only [ht3]
      rw [if_neg (by simp),
        if_pos (show List.head? ('\x7d' :: rest) = some '\x7d' from rfl)]
      rw [objInsert_fresh hkfresh]
      rfl
    | cons e2 ms' =>
      have hsafe2 : RTSafe e2.2 = true := (hsafe e2 (by simp)).2
      obtain ⟨hWne, hWhead, _⟩ := Json_facts hsafe2
      have hJtail_head : (joinComma ((e2 :: ms').map entryText)).head? = some '"' := by
        rw [List.map_cons]
        rw [(joinComma_head_of_ne_nil (entryText_ne_nil e2) _).1]
        exact entryText_head e2
      have hJtail_ne : joinComma ((e2 :: ms').map entryText) ≠ [] := by
        rw [List.map_cons]
        exact (joinComma_head_of_ne_nil (entryText_ne_nil e2) _).2
      have hshape : joinComma (((k, v) :: e2 :: ms').map entryText) ++ ' ' :: '\x7d' :: rest
          = quoteGo k ++ (':' :: ' ' :: (v.Json ++ (',' :: ' ' ::
              (joinComma ((e2 :: ms').map entryText) ++ ' ' :: '\x7d' :: rest)))) := by
        rw [List.map_cons, List.map_cons, joinComma_cons_cons]
        simp [entryText]
      have hrest1 : GoodRest (',' :: ' ' ::
          (joinComma ((e2 :: ms').map entryText) ++ ' ' :: '\x7d' :: rest)) := by
        have := @goodRest_mk ',' (Or.inl rfl)
          (' ' :: joinComma ((e2 :: ms').map entryText) ++ [' ']) rest '\x7d'
          (Or.inr rfl) hrest
        simpa using this
      obtain ⟨v', t', hpv, ht', hrel⟩ := IH ⟨k, v⟩ (by simp) f' _ hfv hrest1
      have heq := @trimSpace_elems_close
        (',' :: ' ' :: joinComma ((e2 :: ms').map entryText)) rest '\x7d'
        (Or.inr rfl) hrest (by simp)
        (by intro c hc; simp only [List.head?_cons, Option.some.injEq] at hc; subst hc; decide)
      simp only [List.cons_append] at heq
      have ht3 : trimSpace t'
          = ',' :: ' ' :: (joinComma ((e2 :: ms').map entryText) ++ ' ' :: '\x7d' :: rest) := by
        rcases ht' with h | h <;> rw [h]
        · exact heq
        · rw [trimSpace_idem]; exact heq
      have hdrop : (quoteGo k ++ (':' :: ' ' :: (v.Json ++ (',' :: ' ' ::
            (joinComma ((e2 :: ms').map entryText) ++ ' ' :: '\x7d' :: rest)))) : Str).drop
            (((k.map quoteChar).flatten).length + 2)
          = ':' :: ' ' :: (v.Json ++ (',' :: ' ' ::
            (joinComma ((e2 :: ms').map entryText) ++ ' ' :: '\x7d' :: rest))) := drop_quoteGo k _
      have ht1 : trimSpace ((quoteGo k ++ (':' :: ' ' :: (v.Json ++ (',' :: ' ' ::
            (joinComma ((e2 :: ms').map entryText) ++ ' ' :: '\x7d' :: rest)))) : Str).drop
            (((k.map quoteChar).flatten).length + 2))
          = ':' :: ' ' :: (v.Json ++ (',' :: ' ' ::
            (joinComma ((e2 :: ms').map entryText) ++ ' ' :: '\x7d' :: rest))) := by
        rw [hdrop]
        exact trimSpace_colon_body hJne hrest1 (by simp)
      have ht2 : trimSpace ((':' :: ' ' :: (v.Json ++ (',' :: ' ' ::
            (joinComma ((e2 :: ms').map entryText) ++ ' ' :: '\x7d' :: rest))) : Str).drop 1)
          = v.Json ++ (',' :: ' ' ::
            (joinComma ((e2 :: ms').map entryText) ++ ' ' :: '\x7d' :: rest)) := by
        rw [List.drop_succ_cons, List.drop_zero, trimSpace_cons_space (by decide)]
        exact trimSpace_Json_append hsv hrest1
      have hpv2 : parseValueF f' (trimSpace ((':' :: ' ' :: (v.Json ++ (',' :: ' ' ::
            (joinComma ((e2 :: ms').map entryText) ++ ' ' :: '\x7d' :: rest))) : Str).drop 1))
          = .ok ⟨v', t', none⟩ := by rw [ht2]; exact hpv
      have ht4 : trimSpace (' ' :: (joinComma ((e2 :: ms').map entryText) ++ ' ' :: '\x7d' :: rest))
          = joinComma ((e2 :: ms').map entryText) ++ ' ' :: '\x7d' :: rest := by
        rw [trimSpace_cons_space (by decide)]
        exact trimSpace_elems_close (Or.inr rfl) hrest hJtail_ne
          (fun c hc => by rw [hJtail_head] at hc; cases hc; decide)
      have hnodup' : ((e2 :: ms').map Prod.fst).Nodup := by
        rw [List.map_cons, List.nodup_cons] at hnodup
        exact hnodup.2
      have hknotin : k ∉ (e2 :: ms').map Prod.fst := by
        rw [List.map_cons, List.nodup_cons] at hnodup
        exact hnodup.1
      have hihf : needFuelEntries (e2 :: ms') ≤ f' := by omega
      have hacc' : ∀ e' ∈ e2 :: ms',
          e'.1 ∉ ((some (objInsert k v' (acc.getD []))).getD []).map Prod.fst := by
        intro e' he'
        rw [Option.getD_some, objInsert_fresh hkfresh, List.map_append]
        rw [List.mem_append]
        push_neg
        refine ⟨fun hi => hacc e' (by simp [he']) hi, ?_⟩
        simp only [List.map_cons, List.map_nil, List.mem_singleton]
        intro hke
        exact hknotin (hke ▸ List.mem_map_of_mem Prod.fst he')
      obtain ⟨m'', hrun, hfa⟩ := ih
        (fun e' he' f rest hfe hre => IH e' (by simp [he']) f rest hfe hre)
        (by simp) (fun e' he' => hsafe e' (by simp [he'])) hnodup' f' hihf
        (some (objInsert k v' (acc.getD []))) rest hrest hacc'
      refine ⟨(k, v') :: m'', ?_, List.Forall₂.cons ⟨rfl, hrel⟩ hfa⟩
      rw [hshape, objLoopF_step (by simp [hqne]) (by rw [head?_append_left hqne]; simp [quoteGo])
        (getString_quoteGo hk _) ht1 (by simp) rfl (by rw [ht2]; simp [hJne]) hpv2 acc]
      simp only [ht3]
      rw [if_neg (by simp), if_neg (by simp),
        if_pos (show List.head? (',' :: ' ' :: (joinComma ((e2 :: ms').map entryText) ++ ' ' :: '\x7d' :: rest)) = some ',' from rfl)]
      simp only [List.drop_succ_cons, List.drop_zero, ht4]
      rw [if_neg (by simp), hrun]
      rw [Option.getD_some, objInsert_fresh hkfresh]
      simp

theorem forall₂_keys_eq {m m' : List (Str × JVal)}
    (hfa : List.Forall₂ (fun a b => a.1 = b.1 ∧ RTrel a.2 b.2) m m') :
    m'.map Prod.fst = m.map Prod.fst := by
  induction hfa with
  | nil => rfl
  | cons he _ ih => simp [ih, he.1]

theorem equal_array_of_forall₂ {l l' : List JVal} (hfa : List.Forall₂ RTrel l l') :
    (JVal.jarray (some l)).Equal (.jarray (some l')) = some true := by
  have hlen := List.Forall₂.length_eq hfa
  have h1 := arrEqLoop_of_forall₂ hfa
  simp [JVal.Equal, hlen, h1]

theorem equal_object_of_forall₂ {m m' : List (Str × JVal)}
    (hnodup : (m.map Prod.fst).Nodup)
    (hfa : List.Forall₂ (fun a b => a.1 = b.1 ∧ RTrel a.2 b.2) m m') :
    (JVal.jobject (some m)).Equal (.jobject (some m')) = some true := by
  have hlen := List.Forall₂.length_eq hfa
  have h1 : cmpMapLoop m m' = some true := by
    apply cmpMapLoop_of_lookup
    intro e he
    obtain ⟨o, ho, hro⟩ := forall₂_lookup_left hfa (lookup_self hnodup he)
    exact ⟨o, ho, hro⟩
  have h2 : cmpMapLoop m' m = some true := by
    apply cmpMapLoop_rev_of_lookup
    intro e' he'
    obtain ⟨e, he, hk, hr⟩ := forall₂_mem_right hfa e' he'
    refine ⟨e.2, ?_, hr⟩
    rw [← hk]
    exact lookup_self hnodup he
  simp [JVal.Equal, cmpMap, hlen, h1, h2]

theorem equal_object_of_perm_forall₂ {m ms m' : List (Str × JVal)}
    (hperm : ms.Perm m) (hnodup : (m.map Prod.fst).Nodup)
    (hfa : List.Forall₂ (fun a b => a.1 = b.1 ∧ RTrel a.2 b.2) ms m') :
    (JVal.jobject (some m)).Equal (.jobject (some m')) = some true := by
  have hnodups : (ms.map Prod.fst).Nodup := ((hperm.map Prod.fst).nodup_iff).mpr hnodup
  have hlen : m.length = m'.length := by
    rw [← hperm.length_eq]
    exact List.Forall₂.length_eq hfa
  have h1 : cmpMapLoop m m' = some true := by
    apply cmpMapLoop_of_lookup
    intro e he
    obtain ⟨o, ho, hro⟩ := forall₂_lookup_left hfa (lookup_self hnodups (hperm.mem_iff.mpr he))
    exact ⟨o, ho, hro⟩
  have h2 : cmpMapLoop m' m = some true := by
    apply cmpMapLoop_rev_of_lookup
    intro e' he'
    obtain ⟨e, he, hk, hr⟩ := forall₂_mem_right hfa e' he'
    refine ⟨e.2, ?_, hr⟩
    rw [← hk]
    exact lookup_self hnodup (hperm.mem_iff.mp he)
  simp [JVal.Equal, cmpMap, hlen, h1, h2]

theorem needFuel_pos (v : JVal) : 1 ≤ needFuel v := by
  cases v with
  | jarray p => cases p <;> simp [needFuel] <;> omega
  | jobject p => cases p <;> simp [needFuel] <;> omega
  | jnil => simp [needFuel]
  | jint p => simp [needFuel]
  | jfloat p => simp [needFuel]
  | jbool p => simp [needFuel]
  | jstring p => simp [needFuel]

/-- The master serialize-then-parse round trip: on round-trip-safe values,
re-parsing the serialization (with any good rest appended) succeeds with no
error, stops at the rest, and yields a round-trip related value. -/
theorem rt_main : ∀ N : Nat, ∀ v : JVal, sizeOf v ≤ N → RTSafe v = true →
    ∀ f rest, needFuel v ≤ f → GoodRest rest →
    ∃ v' t', parseValueF f (v.Json ++ rest) = .ok ⟨v', t', none⟩ ∧
      (t' = rest ∨ t' = trimSpace rest) ∧ RTrel v v' := by
  intro N
  induction N with
  | zero =>
    intro v hsz
    exfalso
    cases v <;> simp at hsz
  | succ N ih =>
    intro v hsz hsafe f rest hf hrest
    obtain ⟨f1, rfl⟩ : ∃ f1, f = f1 + 1 :=
      ⟨f - 1, by have := needFuel_pos v; omega⟩
    have htrim : trimSpace (v.Json ++ rest) = v.Json ++ rest :=
      trimSpace_Json_append hsafe hrest
    by_cases hnull : v.IsNull = true
    · have hJ : v.Json = strL "null" := Json_of_isNull hnull
      have hshape : v.Json ++ rest = 'n' :: (strL "ull" ++ rest) := by rw [hJ]; rfl
      refine ⟨.jnil, trimSpace rest, ?_, Or.inr rfl, ?_⟩
      · rw [hshape, parseValueF_null (hshape ▸ htrim) rfl]
        have hpn := @parseNull_roundtrip rest hrest
        rw [show (strL "null" ++ rest : Str) = 'n' :: (strL "ull" ++ rest) from rfl] at hpn
        rw [hpn]
      · simp [RTrel, hnull]
    · cases v with
      | jnil => simp [JVal.IsNull] at hnull
      | jfloat p =>
        cases p with
        | none => simp [JVal.IsNull] at hnull
        | some q => simp [RTSafe] at hsafe
      | jint p =>
        cases p with
        | none => simp [JVal.IsNull] at hnull
        | some n =>
          have hrange : intInRange n = true := by simpa [RTSafe] using hsafe
          rw [intInRange, Bool.and_eq_true, decide_eq_true_eq, decide_eq_true_eq] at hrange
          have hJ : (JVal.jint (some n)).Json = intRepr n := by simp [JVal.Json]
          obtain ⟨c, cs, hcs⟩ : ∃ c cs, intRepr n = c :: cs := by
            cases h : intRepr n with
            | nil => exact absurd h (intRepr_ne_nil n)
            | cons c cs => exact ⟨c, cs, rfl⟩
          have hc : c = '-' ∨ isDigit c = true := by
            have := intRepr_chars n c (hcs ▸ List.mem_cons_self c cs)
            tauto
          have hshape : (JVal.jint (some n)).Json ++ rest = c :: (cs ++ rest) := by
            rw [hJ, hcs]; rfl
          refine ⟨.jint (some n), rest, ?_, Or.inl rfl, ?_⟩
          · rw [hshape, parseValueF_num (hshape ▸ htrim) hc]
            have hpn := parseNumber_intRepr hrange.1 hrange.2 hrest
            rw [show (intRepr n ++ rest : Str) = c :: (cs ++ rest) from by rw [hcs]; rfl] at hpn
            rw [hpn]
          · simp [RTrel, JVal.IsNull, JVal.Equal]
      | jbool p =>
        cases p with
        | none => simp [JVal.IsNull] at hnull
        | some b =>
          cases b with
          | true =>
            have hshape : (JVal.jbool (some true)).Json ++ rest
                = 't' :: (strL "rue" ++ rest) := by simp [JVal.Json]; rfl
            refine ⟨.jbool (some true), trimSpace rest, ?_, Or.inr rfl, ?_⟩
            · rw [hshape, parseValueF_bool (hshape ▸ htrim) (Or.inl rfl)]
              have hpb := parseBool_roundtrip true hrest
              rw [show ((if true then strL "true" else strL "false") ++ rest : Str)
                  = 't' :: (strL "rue" ++ rest) from rfl] at hpb
              rw [hpb]
            · simp [RTrel, JVal.IsNull, JVal.Equal]
          | false =>
            have hshape : (JVal.jbool (some false)).Json ++ rest
                = 'f' :: (strL "alse" ++ rest) := by simp [JVal.Json]; rfl
            refine ⟨.jbool (some false), trimSpace rest, ?_, Or.inr rfl, ?_⟩
            · rw [hshape, parseValueF_bool (hshape ▸ htrim) (Or.inr rfl)]
              have hpb := parseBool_roundtrip false hrest
              rw [show ((if false then strL "true" else strL "false") ++ rest : Str)
                  = 'f' :: (strL "alse" ++ rest) from rfl] at hpb
              rw [hpb]
            · simp [RTrel, JVal.IsNull, JVal.Equal]
      | jstring p =>
        cases p with
        | none => simp [JVal.IsNull, strNullB] at hnull
        | some s =>
          have hns : strNullB (some s) = false := by simpa [JVal.IsNull] using hnull
          have hsall : s.all safeChar = true := by simpa [RTSafe] using hsafe
          have hshape : (JVal.jstring (some s)).Json ++ rest
              = '"' :: (((s.map quoteChar).flatten ++ ['"']) ++ rest) := by
            simp [JVal.Json, hns, quoteGo]
          refine ⟨.jstring (some s), rest, ?_, Or.inl rfl, ?_⟩
          · rw [hshape, parseValueF_str (hshape ▸ htrim) rfl]
            have hps := parseString_quote hsall hrest
            rw [show (quoteGo s ++ rest : Str)
                = '"' :: (((s.map quoteChar).flatten ++ ['"']) ++ rest) from by
              simp [quoteGo]] at hps
            rw [hps]
          · simp [RTrel, JVal.IsNull, hns, JVal.Equal]
      | jarray p =>
        cases p with
        | none => simp [JVal.IsNull] at hnull
        | some l =>
          have hsplit : l ≠ [] ∧ RTlist l = true := by
            have hh := hsafe
            simp only [RTSafe, Bool.and_eq_true] at hh
            exact ⟨by simpa [List.isEmpty_iff] using hh.1, hh.2⟩
          obtain ⟨v0, vs0, rfl⟩ : ∃ v0 vs0, l = v0 :: vs0 := by
            cases l with
            | nil => exact absurd rfl hsplit.1
            | cons a b => exact ⟨a, b, rfl⟩
          have hshape : (JVal.jarray (some (v0 :: vs0))).Json ++ rest
              = '[' :: (' ' :: (joinComma (jsonList (v0 :: vs0)) ++ ' ' :: ']' :: rest)) := by
            simp [JVal.Json]
          obtain ⟨f2, rfl⟩ : ∃ f2, f1 = f2 + 1 :=
            ⟨f1 - 1, by simp [needFuel] at hf; omega⟩
          have hIH : ∀ e ∈ v0 :: vs0, ∀ f rest, needFuel e ≤ f → GoodRest rest →
              ∃ v' t', parseValueF f (e.Json ++ rest) = .ok ⟨v', t', none⟩ ∧
                (t' = rest ∨ t' = trimSpace rest) ∧ RTrel e v' := by
            intro e he f rest hfe hre
            apply ih e ?_ (RTlist_mem hsplit.2 e he) f rest hfe hre
            have h1 := List.sizeOf_lt_of_mem he
            have h2 : sizeOf (JVal.jarray (some (v0 :: vs0)))
                = 1 + (1 + sizeOf (v0 :: vs0)) := by simp
            omega
          obtain ⟨l', hrun, hfa⟩ := arrLoop_rt (v0 :: vs0) hIH hsplit.1 hsplit.2 f2
            (by simp [needFuel] at hf; omega) none rest hrest
          have hv0safe : RTSafe v0 = true := RTlist_mem hsplit.2 v0 (by simp)
          obtain ⟨h0ne, h0head, _⟩ := Json_facts hv0safe
          have hJC_head : (joinComma (jsonList (v0 :: vs0))).head? = v0.Json.head? := by
            rw [jsonList_cons]
            exact (joinComma_head_of_ne_nil h0ne _).1
          have hJC_ne : joinComma (jsonList (v0 :: vs0)) ≠ [] := by
            rw [jsonList_cons]
            exact (joinComma_head_of_ne_nil h0ne _).2
          have hdt : trimSpace (' ' :: (joinComma (jsonList (v0 :: vs0)) ++ ' ' :: ']' :: rest))
              = joinComma (jsonList (v0 :: vs0)) ++ ' ' :: ']' :: rest := by
            rw [trimSpace_cons_space (by decide)]
            exact trimSpace_elems_close (Or.inl rfl) hrest hJC_ne
              (fun c hc => h0head c (hJC_head ▸ hc))
          refine ⟨.jarray (some l'), trimSpace rest, ?_, Or.inr rfl, ?_⟩
          · rw [hshape, parseValueF_arr (hshape ▸ htrim) rfl]
            rw [parseArrayF]
            rw [show trimSpace ('[' :: (' ' :: (joinComma (jsonList (v0 :: vs0)) ++ ' ' :: ']' :: rest)))
                = '[' :: (' ' :: (joinComma (jsonList (v0 :: vs0)) ++ ' ' :: ']' :: rest))
              from hshape ▸ htrim]
            rw [if_neg (by simp), if_neg (by simp)]
            rw [List.drop_succ_cons, List.drop_zero, hdt, hrun]
            rfl
          · have heq := equal_array_of_forall₂ hfa
            simp [RTrel, JVal.IsNull, heq]
      | jobject p =>
        cases p with
        | none => simp [JVal.IsNull] at hnull
        | some m =>
          have hparts : m ≠ [] ∧ (m.map Prod.fst).Nodup ∧ RTentries m = true := by
            have hh := hsafe
            simp only [RTSafe, Bool.and_eq_true] at hh
            exact ⟨by simpa [List.isEmpty_iff] using hh.1.1, by simpa using hh.1.2, hh.2⟩
          obtain ⟨hmne, hnodup, hent⟩ := hparts
          have hperm : (List.insertionSort keyLe m).Perm m := List.perm_insertionSort keyLe m
          have hshape : (JVal.jobject (some m)).Json ++ rest
              = '\x7b' :: (' ' :: (joinComma ((List.insertionSort keyLe m).map entryText)
                  ++ ' ' :: '\x7d' :: rest)) := by
            rw [objJson_decomp]
            simp
          obtain ⟨f2, rfl⟩ : ∃ f2, f1 = f2 + 1 :=
            ⟨f1 - 1, by simp [needFuel] at hf; omega⟩
          have hsmem : ∀ e ∈ List.insertionSort keyLe m, e ∈ m :=
            fun e he => hperm.mem_iff.mp he
          have hsne : List.insertionSort keyLe m ≠ [] := by
            intro h
            have hlen := hperm.length_eq
            rw [h] at hlen
            cases m with
            | nil => exact hmne rfl
            | cons a b => simp at hlen
          have hssafe : ∀ e ∈ List.insertionSort keyLe m,
              e.1.all safeChar = true ∧ RTSafe e.2 = true :=
            fun e he => RTentries_mem hent e (hsmem e he)
          have hsnodup : ((List.insertionSort keyLe m).map Prod.fst).Nodup :=
            ((hperm.map Prod.fst).nodup_iff).mpr hnodup
          have hIH : ∀ e ∈ List.insertionSort keyLe m, ∀ f rest, needFuel e.2 ≤ f → GoodRest rest →
              ∃ v' t', parseValueF f (e.2.Json ++ rest) = .ok ⟨v', t', none⟩ ∧
                (t' = rest ∨ t' = trimSpace rest) ∧ RTrel e.2 v' := by
            intro e he f rest hfe hre
            have h1 := List.sizeOf_lt_of_mem (hsmem e he)
            obtain ⟨k0, v0⟩ := e
            apply ih v0 ?_ (hssafe ⟨k0, v0⟩ he).2 f rest hfe hre
            have h2 : sizeOf (JVal.jobject (some m)) = 1 + (1 + sizeOf m) := by simp
            simp at h1
            omega
          obtain ⟨m', hrun, hfa⟩ := objLoop_rt (List.insertionSort keyLe m) hIH hsne hssafe
            hsnodup f2
            (by rw [needFuelEntries_perm hperm]; simp [needFuel] at hf; omega)
            none rest hrest (by intro e he; simp)
          obtain ⟨e0, ms0, hcons⟩ : ∃ e0 ms0, List.insertionSort keyLe m = e0 :: ms0 := by
            cases h : List.insertionSort keyLe m with
            | nil => exact absurd h hsne
            | cons a b => exact ⟨a, b, rfl⟩
          have hJC_head : (joinComma ((List.insertionSort keyLe m).map entryText)).head?
              = some '"' := by
            rw [hcons, List.map_cons, (joinComma_head_of_ne_nil (entryText_ne_nil e0) _).1]
            exact entryText_head e0
          have hJC_ne : joinComma ((List.insertionSort keyLe m).map entryText) ≠ [] := by
            rw [hcons, List.map_cons]
            exact (joinComma_head_of_ne_nil (entryText_ne_nil e0) _).2
          have hdt : trimSpace (' ' :: (joinComma ((List.insertionSort keyLe m).map entryText)
                ++ ' ' :: '\x7d' :: rest))
              = joinComma ((List.insertionSort keyLe m).map entryText)
                ++ ' ' :: '\x7d' :: rest := by
            rw [trimSpace_cons_space (by decide)]
            exact trimSpace_elems_close (Or.inr rfl) hrest hJC_ne
              (fun c hc => by rw [hJC_head] at hc; cases hc; decide)
          refine ⟨.jobject (some m'), trimSpace rest, ?_, Or.inr rfl, ?_⟩
          · rw [hshape, parseValueF_obj (hshape ▸ htrim) rfl]
            rw [parseObjectF]
            rw [show trimSpace ('\x7b' :: (' ' :: (joinComma ((List.insertionSort keyLe m).map entryText) ++ ' ' :: '\x7d' :: rest)))
                = '\x7b' :: (' ' :: (joinComma ((List.insertionSort keyLe m).map entryText) ++ ' ' :: '\x7d' :: rest))
              from hshape ▸ htrim]
            rw [if_neg (by simp), if_neg (by simp)]
            rw [List.drop_succ_cons, List.drop_zero, hdt, hrun]
            rfl
          · have heq := equal_object_of_perm_forall₂ hperm hnodup hfa
            simp [RTrel, JVal.IsNull, heq]

/-- The wrapper fuel `3 * length + 3` always covers the fuel needed to
re-parse a safe serialization. -/
theorem needFuel_le_json : ∀ N : Nat, ∀ v : JVal, sizeOf v ≤ N → RTSafe v = true →
    needFuel v ≤ 3 * (v.Json).length := by
  intro N
  induction N with
  | zero =>
    intro v hsz
    exfalso
    cases v <;> simp at hsz
  | succ N ih =>
    intro v hsz hsafe
    have hlen1 : 1 ≤ (v.Json).length := by
      have hne := (Json_facts hsafe).1
      cases h : v.Json with
      | nil => exact absurd h hne
      | cons a b => simp [h]
    cases v with
    | jnil => simp [needFuel]; omega
    | jint p => simp [needFuel]; omega
    | jfloat p => simp [needFuel]; omega
    | jbool p => simp [needFuel]; omega
    | jstring p => simp [needFuel]; omega
    | jarray p =>
      cases p with
      | none => simp [needFuel]; omega
      | some l =>
        have hsplit : l ≠ [] ∧ RTlist l = true := by
          have hh := hsafe
          simp only [RTSafe, Bool.and_eq_true] at hh
          exact ⟨by simpa [List.isEmpty_iff] using hh.1, hh.2⟩
        have hlist : ∀ l2 : List JVal, (∀ e ∈ l2, e ∈ l) → RTlist l2 = true → l2 ≠ [] →
            needFuelList l2 ≤ 3 * (joinComma (jsonList l2)).length + 1 := by
          intro l2
          induction l2 with
          | nil => intro _ _ h; exact absurd rfl h
          | cons w ws ihw =>
            intro hsub hsafe2 _
            rw [RTlist, Bool.and_eq_true] at hsafe2
            have hw : needFuel w ≤ 3 * w.Json.length := by
              apply ih w ?_ hsafe2.1
              have h1 := List.sizeOf_lt_of_mem (hsub w (by simp))
              have h2 : sizeOf (JVal.jarray (some l)) = 1 + (1 + sizeOf l) := by simp
              omega
            cases ws with
            | nil =>
              rw [jsonList_cons, jsonList, joinComma_singleton, needFuelList, needFuelList]
              omega
            | cons x xs =>
              have hrec := ihw (fun e he => hsub e (by simp [he])) hsafe2.2 (by simp)
              rw [jsonList_cons x xs] at hrec
              rw [needFuelList, jsonList_cons w (x :: xs), jsonList_cons x xs,
                joinComma_cons_cons]
              simp only [List.length_append, List.length_cons]
              omega
        have hb := hlist l (fun e he => he) hsplit.2 hsplit.1
        have hlen : ((JVal.jarray (some l)).Json).length
            = (joinComma (jsonList l)).length + 4 := by
          simp [JVal.Json]
        rw [hlen]
        simp only [needFuel]
        omega
    | jobject p =>
      cases p with
      | none => simp [needFuel]; omega
      | some m =>
        have hparts : m ≠ [] ∧ RTentries m = true := by
          have hh := hsafe
          simp only [RTSafe, Bool.and_eq_true] at hh
          exact ⟨by simpa [List.isEmpty_iff] using hh.1.1, hh.2⟩
        have hperm : (List.insertionSort keyLe m).Perm m := List.perm_insertionSort keyLe m
        have hsne : List.insertionSort keyLe m ≠ [] := by
          intro h
          have hlen := hperm.length_eq
          rw [h] at hlen
          cases m with
          | nil => exact hparts.1 rfl
          | cons a b => simp at hlen
        have hentlist : ∀ ms2 : List (Str × JVal), (∀ e ∈ ms2, e ∈ m) → ms2 ≠ [] →
            (∀ e ∈ ms2, RTSafe e.2 = true) →
            needFuelEntries ms2 ≤ 3 * (joinComma (ms2.map entryText)).length + 1 := by
          intro ms2
          induction ms2 with
          | nil => intro _ h; exact absurd rfl h
          | cons w ws ihw =>
            intro hsub _ hsafe2
            have hw : needFuel w.2 ≤ 3 * w.2.Json.length := by
              apply ih w.2 ?_ (hsafe2 w (by simp))
              have h1 := List.sizeOf_lt_of_mem (hsub w (by simp))
              have h2 : sizeOf (JVal.jobject (some m)) = 1 + (1 + sizeOf m) := by simp
              obtain ⟨k0, v0⟩ := w
              simp at h1
              show sizeOf v0 ≤ N
              omega
            have hwlen : w.2.Json.length ≤ (entryText w).length := by
              simp [entryText, List.length_append]
              omega
            cases ws with
            | nil =>
              rw [List.map_cons, List.map_nil, joinComma_singleton,
                needFuelEntries, needFuelEntries]
              omega
            | cons x xs =>
              have hrec := ihw (fun e he => hsub e (by simp [he])) (by simp)
                (fun e he => hsafe2 e (by simp [he]))
              rw [List.map_cons] at hrec
              rw [needFuelEntries, List.map_cons, List.map_cons, joinComma_cons_cons]
              simp only [List.length_append, List.length_cons]
              omega
        have hb := hentlist (List.insertionSort keyLe m)
          (fun e he => hperm.mem_iff.mp he) hsne
          (fun e he => (RTentries_mem hparts.2 e (hperm.mem_iff.mp he)).2)
        have hfm : needFuelEntries m = needFuelEntries (List.insertionSort keyLe m) :=
          (needFuelEntries_perm hperm).symm
        have hlen : ((JVal.jobject (some m)).Json).length
            = (joinComma ((List.insertionSort keyLe m).map entryText)).length + 4 := by
          rw [objJson_decomp]
          simp
        rw [hlen]
        simp only [needFuel]
        omega

/-- C1 counterexample: the unrestricted round-trip law fails on two
well-formed non-float values.  The empty array serializes to `[  ]`, which
`ParseValue` rejects (`BadValue` from the element position), and the
one-character string U+0007 serializes via `%q` to `"\a"`, which the scanner
decodes through its relaxed default arm as the literal letter `a`, so the
re-parsed value is not `Equal` to the original. -/
theorem C1_counterexample_roundtrip :
    (ParseValue ((JVal.jarray (some [])).Json)
        = .ok ⟨.jarray none, [], some .badValue⟩) ∧
    (ParseValue ((JVal.jstring (some ['\x07'])).Json)
        = .ok ⟨.jstring (some ['a']), [], none⟩ ∧
      (JVal.jstring (some ['\x07'])).Equal (.jstring (some ['a'])) = some false) := by
  have hJ1 : (JVal.jarray (some ([] : List JVal))).Json = strL "[  ]" := by
    simp only [JVal.Json, jsonList]
    rfl
  have hJ2 : (JVal.jstring (some ['\x07'])).Json = strL "\"\\a\"" := by
    simp only [JVal.Json]
    rfl
  refine ⟨?_, ?_, ?_⟩
  · rw [hJ1]; rfl
  · rw [hJ2]; rfl
  · simp only [JVal.Equal]
    rfl

/-- C1 (amended): the round trip `ParseValue (v.Json)` ends with empty tail,
no error, and a value `Equal` to `v` for every round-trip-safe `v` other
than the bare nil interface: no float payload, strings and keys over a
character set on which `%q` quoting provably inverts (Latin-1 printables and
the controls `\b \f \n \r \t`; excluded are e.g. `\a`, `\v` and
non-printable runes above Latin-1, whose escapes the relaxed default arm
decodes to the literal letters), containers non-empty with pairwise distinct
keys, integers in signed 64-bit range.  Null-state typed values round-trip
to the parsed-`null` nil interface, which their `Equal` also accepts. -/
theorem C1_roundtrip_amended (v : JVal) (hsafe : RTSafe v = true)
    (hnil : v ≠ .jnil) :
    ∃ v', ParseValue v.Json = .ok ⟨v', [], none⟩ ∧ v.Equal v' = some true := by
  obtain ⟨v', t', hrun, ht', hrel⟩ := rt_main (sizeOf v) v le_rfl hsafe
    (3 * (v.Json).length + 3) []
    (by have := needFuel_le_json (sizeOf v) v le_rfl hsafe; omega)
    (Or.inl rfl)
  rw [List.append_nil] at hrun
  have ht0 : t' = [] := by rcases ht' with h | h <;> rw [h] <;> rfl
  subst ht0
  refine ⟨v', hrun, ?_⟩
  by_cases hn : v.IsNull = true
  · rw [RTrel_null hrel hn]
    exact equal_jnil_of_null hn hnil
  · exact (RTrel_not_null hrel (by simpa using hn)).1

/-- Witness: a concrete one-element array of an integer satisfies the
amended round-trip law's hypotheses and conclusion. -/
theorem C1_roundtrip_amended_witness :
    RTSafe (.jarray (some [.jint (some 5)])) = true ∧
    (JVal.jarray (some [.jint (some 5)])) ≠ .jnil ∧
    ∃ v', ParseValue (JVal.jarray (some [.jint (some 5)])).Json = .ok ⟨v', [], none⟩ ∧
      (JVal.jarray (some [.jint (some 5)])).Equal v' = some true := by
  have h1 : RTSafe (.jarray (some [.jint (some 5)])) = true := by
    simp [RTSafe, RTlist, intInRange]
  have h2 : (JVal.jarray (some [.jint (some 5)])) ≠ .jnil := fun h => JVal.noConfusion h
  exact ⟨h1, h2, C1_roundtrip_amended (.jarray (some [.jint (some 5)])) h1 h2⟩
